import Mathlib

/-!
Verification development for the configuration-explanation engine of the
repository (core merge engine in src/core/explained.ts, extends-chain
resolver and flatten/unflatten in src/adapters/tsconfig.ts).

Embedding conventions:
* JavaScript values appearing as configuration data are modelled by the
  inductive type Value (null, booleans, numbers as Int, strings, arrays,
  plain objects as ordered association lists).  JavaScript objects keep
  insertion order, so objects are ordered lists of key/value pairs.
* Map coincides with an ordered association list; Set of strings with an
  ordered duplicate-free list.
* Date.now() is replaced by an explicit timestamp parameter; the code only
  ever compares these values, never interprets them.
* JavaScript exceptions are modelled with Except: the in operator applied
  to a truthy primitive throws TypeError, which Explained.merge does not
  catch.  Exotic property lookups (prototype chains, the length property of
  arrays) are outside the configuration data model and are not represented.
* The extends-chain resolver walks a virtual filesystem: an association
  list from already-resolved locations to either a parsed document or an
  unparseable file.  Relative-path and package-reference resolution is a
  host-environment collaborator and is modelled as identity on that
  filesystem; an unknown location models a file that cannot be located.
  Its recursion is bounded by explicit fuel; the termination theorems show
  that fuel larger than the number of files always suffices.
-/

/-- JSON-like values: the configuration data the engine manipulates. -/
inductive Value where
  | null
  | bool (b : Bool)
  | num (n : Int)
  | str (s : String)
  | arr (elems : List Value)
  | obj (fields : List (String × Value))

/-- Lookup of an own property of an object, first match (JavaScript objects
cannot hold duplicate keys, so association lists built by the embedding keep
keys distinct and the first match is the only one). -/
def lookupField (fs : List (String × Value)) (k : String) : Option Value :=
  (fs.find? (fun kv => kv.1 == k)).map (fun kv => kv.2)

/-- Test for a non-null, non-array object (the check of flattenObject:
obj[key] !== null && typeof obj[key] === objectString && !Array.isArray). -/
def isPlainObj : Value → Bool
  | .obj _ => true
  | _ => false

/-- Test used by Explained.merge when collecting keys:
typeof value === objectString && value !== null.  In JavaScript arrays pass
this test; null has typeof object but is excluded explicitly. -/
def isObjLike : Value → Bool
  | .obj _ => true
  | .arr _ => true
  | _ => false

/-- JavaScript truthiness of a value. -/
def jsTruthy : Value → Bool
  | .null => false
  | .bool b => b
  | .num n => !(n == 0)
  | .str s => !(s == "")
  | .arr _ => true
  | .obj _ => true

/-- Object.keys: own enumerable keys of an object; for arrays the index
strings. -/
def keysOfValue : Value → List String
  | .obj fs => fs.map (fun kv => kv.1)
  | .arr xs => (List.range xs.length).map (fun i => toString i)
  | _ => []

/-- JavaScript in operator: property membership on objects and arrays,
TypeError on primitives.  merge only evaluates it after a truthiness check,
so the null case is unreachable there. -/
def jsHasKey : Value → String → Except String Bool
  | .obj fs, key => .ok (fs.any (fun kv => kv.1 == key))
  | .arr xs, key =>
    .ok (match key.toNat? with
         | some i => decide (i < xs.length)
         | none => false)
  | _, _ => .error "TypeError: in operator applied to a non-object"

/-- Property read value[key] for the data model. -/
def jsGet : Value → String → Option Value
  | .obj fs, key => lookupField fs key
  | .arr xs, key => key.toNat?.bind (fun i => xs.get? i)
  | _, _ => none

/-- Explanation record of src/core/types.ts: one competing value for one
field, with provenance, precedence, win flag and timestamp. -/
structure Explanation where
  source : String
  value : Value
  reason : String
  precedence : Int
  location : Option String
  won : Bool
  timestamp : Nat

/-- Explained wrapper of src/core/explained.ts: a resolved value plus its
decision ledger, a Map from field path to the ordered explanation list. -/
structure Explained where
  value : Value
  explanations : List (String × List Explanation)

/-- Map.get on the ledger (first matching key; ledger keys are distinct). -/
def lookupExps (ledger : List (String × List Explanation)) (k : String) :
    Option (List Explanation) :=
  (ledger.find? (fun kv => kv.1 == k)).map (fun kv => kv.2)

/-- Explained.explain: the explanations recorded for a path, defaulting to
the root sentinel, empty when nothing was recorded. -/
def Explained.explain (e : Explained) (path : Option String) : List Explanation :=
  (lookupExps e.explanations (path.getD "__root__")).getD []

/-- Root explanations of a wrapper, explained.explain() in the source. -/
def Explained.rootExps (e : Explained) : List Explanation :=
  e.explain none

/-- Explained.from: wrap a value with a single winning root explanation.
The name from is reserved in Lean, hence fromValue.  now stands for the
Date.now() call. -/
def Explained.fromValue (value : Value) (source reason : String) (precedence : Int)
    (location : Option String) (now : Nat) : Explained :=
  { value := value
    explanations := [("__root__",
      [{ source := source, value := value, reason := reason, precedence := precedence,
         location := location, won := true, timestamp := now }])] }

/-- Comparator of Explained.merge as a total preorder: a may be placed no
later than b iff the comparator value (b.precedence - a.precedence, with
ties a.timestamp - b.timestamp) is nonpositive. -/
def candLE (a b : Explanation) : Prop :=
  b.precedence < a.precedence ∨
    (a.precedence = b.precedence ∧ a.timestamp ≤ b.timestamp)

instance (a b : Explanation) : Decidable (candLE a b) := by
  unfold candLE; infer_instance

/-- Stable insertion of a candidate into an already sorted list: the new
element is placed before the first entry it may precede.  Elements inserted
later in the sort originate earlier in the candidate list, so equal entries
keep their original relative order, matching the stability guarantee of
Array.prototype.sort. -/
def insertCand (x : Explanation) : List Explanation → List Explanation
  | [] => [x]
  | y :: ys => if candLE x y then x :: y :: ys else y :: insertCand x ys

/-- Stable sort by precedence descending then timestamp ascending
(explanationsForKey.sort in Explained.merge). -/
def sortCands : List Explanation → List Explanation
  | [] => []
  | x :: xs => insertCand x (sortCands xs)

/-- Candidate extraction for one source and one key in Explained.merge:
the source competes when its value is truthy, the in operator admits the
key, and a root explanation provides the provenance metadata; the candidate
is created with won = false. -/
def candidateOf (e : Explained) (key : String) : Except String (Option Explanation) :=
  if jsTruthy e.value then
    match jsHasKey e.value key with
    | .error msg => .error msg
    | .ok hk =>
      if hk then
        match e.rootExps, jsGet e.value key with
        | rootExp :: _, some fieldVal =>
          .ok (some { source := rootExp.source, value := fieldVal,
                      reason := rootExp.reason, precedence := rootExp.precedence,
                      location := rootExp.location, won := false,
                      timestamp := rootExp.timestamp })
        | _, _ => .ok none
      else .ok none
  else .ok none

/-- Candidate list for one key across all sources, in source order (the
inner for loop of Explained.merge). -/
def candidatesFor (sources : List Explained) (key : String) :
    Except String (List Explanation) :=
  match sources with
  | [] => .ok []
  | e :: rest =>
    match candidateOf e key with
    | .error msg => .error msg
    | .ok none => candidatesFor rest key
    | .ok (some c) => (candidatesFor rest key).map (fun cs => c :: cs)

/-- Set.add keeping first-insertion order. -/
def addKeyOnce (acc : List String) (k : String) : List String :=
  if k ∈ acc then acc else acc ++ [k]

/-- Union of the keys of all sources whose value passes the object test
(the allKeys Set of Explained.merge), in first-insertion order. -/
def allMergeKeys (sources : List Explained) : List String :=
  sources.foldl
    (fun acc e =>
      if isObjLike e.value then (keysOfValue e.value).foldl addKeyOnce acc else acc)
    []

/-- Per-key body of Explained.merge: build candidates, sort, mark the head
as winner, record merged field value and ledger entry; keys without
candidates are skipped. -/
def mergeKeys (sources : List Explained) :
    List String → Except String (List (String × Value × List Explanation))
  | [] => .ok []
  | key :: ks =>
    match candidatesFor sources key with
    | .error msg => .error msg
    | .ok cands =>
      match sortCands cands with
      | [] => mergeKeys sources ks
      | w :: rest =>
        (mergeKeys sources ks).map
          (fun es => (key, w.value, ({ w with won := true } : Explanation) :: rest) :: es)

/-- Explained.merge: fold all sources into one merged object plus ledger. -/
def Explained.merge (sources : List Explained) : Except String Explained :=
  (mergeKeys sources (allMergeKeys sources)).map
    (fun entries =>
      { value := .obj (entries.map (fun e => (e.1, e.2.1)))
        explanations := entries.map (fun e => (e.1, e.2.2)) })

/-- Metadata block of the serialized snapshot. -/
structure ResolutionMetadata where
  sourcesCount : Nat
  resolvedAt : Nat

/-- ExplanationResult of src/core/types.ts. -/
structure ExplanationResult where
  value : Value
  explanations : List (String × List Explanation)
  metadata : ResolutionMetadata

/-- Explained.toJSON: snapshot of value, ledger and metadata; the source
sets sourcesCount to this._explanations.size, the number of ledger paths.
now stands for the Date.now() call. -/
def Explained.toJSON (e : Explained) (now : Nat) : ExplanationResult :=
  { value := e.value
    explanations := e.explanations
    metadata := { sourcesCount := e.explanations.length, resolvedAt := now } }

/-- Modelled from the spec: the first-listed candidate of maximal
precedence, the entry the tie-break rule says must win (first-registered
wins on exact precedence ties). -/
def firstMaxPrec : List Explanation → Option Explanation
  | [] => none
  | x :: xs =>
    match firstMaxPrec xs with
    | none => some x
    | some y => if x.precedence < y.precedence then some y else some x

/-- Modelled from the spec: the number of distinct sources recorded in the
ledger (the spec reading of metadata.sourcesCount). -/
def specDistinctSourcesCount (e : Explained) : Nat :=
  (((e.explanations.map (fun kv => kv.2)).flatten).map (fun x => x.source)).dedup.length

/-- TSConfig document of src/adapters/tsconfig.ts: the optional extends
references (a single string is modelled as a one-element list, matching the
normalisation extendsArray of resolveTSConfigChain) plus the remaining
configuration data. -/
structure TSDoc where
  ext : List String
  data : Value

/-- State of one location of the virtual filesystem: a document that parses,
or one whose parse fails. -/
inductive TSFile where
  | parsed (config : TSDoc)
  | malformed

/-- Errors of the extends-chain resolver.  notFound models the throw of
resolveTSConfigPath (Cannot find tsconfig file), parseError the throw of
loadTSConfig (Failed to parse), both carrying the offending location;
fuelExhausted is an artefact of the fuel bound, shown unreachable for
adequate fuel. -/
inductive ResolveError where
  | notFound (path : String)
  | parseError (path : String)
  | fuelExhausted

/-- Location named by a resolver error. -/
def ResolveError.location : ResolveError → Option String
  | .notFound p => some p
  | .parseError p => some p
  | .fuelExhausted => none

/-- Virtual filesystem keyed by resolved locations. -/
abbrev FileSys := List (String × TSFile)

/-- Lookup of a location in the virtual filesystem. -/
def lookupFile (fs : FileSys) (p : String) : Option TSFile :=
  (fs.find? (fun kv => kv.1 == p)).map (fun kv => kv.2)

/-- resolveTSConfigPath: resolve a reference to a concrete location or throw
an error naming the reference.  Relative-path and package resolution is a
host collaborator, modelled as identity on the virtual filesystem. -/
def resolveTSConfigPath (fs : FileSys) (configPath : String) : Except ResolveError String :=
  if (lookupFile fs configPath).isSome then .ok configPath
  else .error (.notFound configPath)

/-- loadTSConfig: parse the document at a location or throw an error naming
the location. -/
def loadTSConfig (fs : FileSys) (configPath : String) : Except ResolveError TSDoc :=
  match lookupFile fs configPath with
  | some (.parsed config) => .ok config
  | _ => .error (.parseError configPath)

/-- TSConfigResolution: one chain entry. -/
structure TSResolution where
  path : String
  config : TSDoc
  precedence : Int

/-- Precedence handed to parent number idx of count parents of a document
with the given precedence: precedence - (extendsArray.length - index) in
resolveTSConfigChain. -/
def parentPrec (precedence : Int) (count idx : Nat) : Int :=
  precedence - ((count : Int) - (idx : Int))

/-- Iteration extendsArray.forEach of resolveTSConfigChain: resolve each
parent reference in declaration order, accumulating chain entries and
threading the visited set; an error aborts the whole walk. -/
def resolveParents
    (recur : String → Int → List String → Except ResolveError (List TSResolution × List String))
    (precedence : Int) (count : Nat) :
    List (Nat × String) → List TSResolution → List String →
      Except ResolveError (List TSResolution × List String)
  | [], chain, visited => .ok (chain, visited)
  | (idx, ref) :: rest, chain, visited =>
    match recur ref (parentPrec precedence count idx) visited with
    | .error e => .error e
    | .ok (c, v2) => resolveParents recur precedence count rest (chain ++ c) v2

/-- Body of resolveTSConfigChain: resolve the location, short-circuit on an
already visited location, parse, resolve parents first (lower precedence),
then append the current document with its own precedence. -/
def resolveChainStep
    (recur : String → Int → List String → Except ResolveError (List TSResolution × List String))
    (fs : FileSys) (configPath : String) (precedence : Int) (visited : List String) :
    Except ResolveError (List TSResolution × List String) :=
  match resolveTSConfigPath fs configPath with
  | .error e => .error e
  | .ok fullPath =>
    if fullPath ∈ visited then .ok ([], visited)
    else
      match loadTSConfig fs fullPath with
      | .error e => .error e
      | .ok config =>
        match resolveParents recur precedence config.ext.length config.ext.enum
            [] (visited ++ [fullPath]) with
        | .error e => .error e
        | .ok (chain, v2) =>
          .ok (chain ++ [{ path := fullPath, config := config, precedence := precedence }], v2)

/-- resolveTSConfigChain with an explicit fuel bound on recursion depth (the
source recursion terminates because the visited set grows; the adequacy
theorems show any fuel beyond the file count behaves identically). -/
def resolveTSConfigChain (fs : FileSys) :
    Nat → String → Int → List String → Except ResolveError (List TSResolution × List String)
  | 0, _, _, _ => .error .fuelExhausted
  | fuel+1, configPath, precedence, visited =>
    resolveChainStep (resolveTSConfigChain fs fuel) fs configPath precedence visited

/-- Number of filesystem locations not yet visited; recursion-depth measure
of the chain walk. -/
def unvisitedCount (fs : FileSys) (visited : List String) : Nat :=
  ((fs.map (fun kv => kv.1)).filter (fun p => decide (p ∉ visited))).length

/-- Wellformedness of one file wrt a filesystem: it parses and each of its
extends references resolves. -/
def fileOk (fs : FileSys) : TSFile → Prop
  | .parsed config => ∀ r ∈ config.ext, (lookupFile fs r).isSome = true
  | .malformed => False

instance (fs : FileSys) : (f : TSFile) → Decidable (fileOk fs f)
  | .parsed config =>
    inferInstanceAs (Decidable (∀ r ∈ config.ext, (lookupFile fs r).isSome = true))
  | .malformed => inferInstanceAs (Decidable False)

/-- Closed filesystem: every stored file parses and every reference it
declares resolves. -/
def closedFs (fs : FileSys) : Prop :=
  ∀ kv ∈ fs, fileOk fs kv.2

instance (fs : FileSys) : Decidable (closedFs fs) :=
  inferInstanceAs (Decidable (∀ kv ∈ fs, fileOk fs kv.2))

/-- Property write result[newKey] = v of JavaScript: overwrite in place when
the key exists, append otherwise. -/
def jsSet (l : List (String × Value)) (k : String) (v : Value) : List (String × Value) :=
  if l.any (fun kv => kv.1 == k) then l.map (fun kv => if kv.1 == k then (k, v) else kv)
  else l ++ [(k, v)]

/-- Dotted-key construction of flattenObject: prefix ? prefix.key : key. -/
def joinKey (pre k : String) : String :=
  if pre = "" then k else pre ++ "." ++ k

mutual
/-- flattenObject of src/adapters/tsconfig.ts: flatten a nested object into
dotted-path keys; null, arrays and primitives are atomic leaves. -/
def flattenObject (v : Value) (pre : String) : List (String × Value) :=
  match v with
  | .obj fs => flattenList fs pre []
  | _ => []
termination_by sizeOf v

/-- Loop of flattenObject over the fields of one object, accumulating into
the local result record: nested plain objects are flattened recursively and
copied in via Object.assign, other values are written under their dotted
key. -/
def flattenList (fs : List (String × Value)) (pre : String)
    (acc : List (String × Value)) : List (String × Value) :=
  match fs with
  | [] => acc
  | (k, v) :: rest =>
    let nk := joinKey pre k
    let acc2 :=
      if isPlainObj v then (flattenObject v nk).foldl (fun a kv => jsSet a kv.1 kv.2) acc
      else jsSet acc nk v
    flattenList rest pre acc2
termination_by sizeOf fs
end

/-- Split of a character list at every dot (the key.split call of
unflattenObject); always returns at least one group. -/
def splitDotsL : List Char → List (List Char)
  | [] => [[]]
  | c :: cs =>
    let r := splitDotsL cs
    if c = '.' then [] :: r
    else
      match r with
      | [] => [[c]]
      | g :: gs => (c :: g) :: gs

/-- String form of splitDotsL: key.split on dots. -/
def splitDots (s : String) : List String :=
  (splitDotsL s.data).map (fun l => ⟨l⟩)

/-- Walk of unflattenObject for one flat entry: descend along the path,
creating empty objects for missing segments, reusing existing objects, and
write the value at the last segment.  Descending into a primitive raises a
TypeError in JavaScript (strict-mode property write on a primitive) and
descending into an array would attach non-index properties the data model
cannot represent; both are modelled as none and are unreachable for
flatten-produced input. -/
def insertPath : Value → List String → Value → Option Value
  | .obj fs, [k], x => some (.obj (jsSet fs k x))
  | .obj fs, k :: k2 :: rest, x =>
    (match lookupField fs k with
     | none => some (Value.obj [])
     | some (.obj ws) => some (Value.obj ws)
     | some _ => none).bind
      (fun s => (insertPath s (k2 :: rest) x).map (fun sub => Value.obj (jsSet fs k sub)))
  | _, _, _ => none

/-- unflattenObject of src/adapters/tsconfig.ts: rebuild a nested object
from dotted-path keys in insertion order. -/
def unflattenObject (flat : List (String × Value)) : Option Value :=
  flat.foldlM (fun acc kv => insertPath acc (splitDots kv.1) kv.2) (Value.obj [])

/-- Concatenation of path segments with dots, the inverse view of splitDots
used to state the round-trip theorem. -/
def joinDotsL : List (List Char) → List Char
  | [] => []
  | [g] => g
  | g :: gs => g ++ '.' :: joinDotsL gs

/-- String form of joinDotsL. -/
def joinSegs (ps : List String) : String :=
  ⟨joinDotsL (ps.map (fun s => s.data))⟩

/-- Key that survives the dotted-path round trip: nonempty and without an
embedded dot. -/
def goodKey (s : String) : Bool :=
  !s.data.isEmpty && !s.data.contains '.'

/-- Leaf paths of a nested document: the segment lists flattenObject
serialises into dotted keys, in emission order. -/
def pathsFields : List (String × Value) → List (List String × Value)
  | [] => []
  | (k, v) :: rest =>
    (match v with
     | .obj ws => (pathsFields ws).map (fun pv => (k :: pv.1, pv.2))
     | _ => [([k], v)]) ++ pathsFields rest
termination_by fs => sizeOf fs

/-- Documents on which the flatten round trip is stated: at every level keys
are nonempty, dot-free and mutually distinct, and every nested plain object
is nonempty. -/
def goodFields : List (String × Value) → Bool
  | [] => true
  | (k, v) :: rest =>
    goodKey k && !(rest.any (fun kv => kv.1 == k)) &&
      (match v with
       | .obj ws => !ws.isEmpty && goodFields ws
       | _ => true) &&
      goodFields rest
termination_by fs => sizeOf fs

/-- Path-level view of unflattenObject used by the round-trip proof: fold
insertPath over a list of already split paths. -/
def insertAll (l : List (List String × Value)) (acc : Value) : Option Value :=
  l.foldlM (fun a pv => insertPath a pv.1 pv.2) acc

theorem insertCand_ne_nil (x : Explanation) (l : List Explanation) :
    insertCand x l ≠ [] := by
  cases l with
  | nil => simp [insertCand]
  | cons y ys => simp only [insertCand]; split <;> simp

theorem mem_insertCand {z x : Explanation} {l : List Explanation} :
    z ∈ insertCand x l ↔ z = x ∨ z ∈ l := by
  induction l with
  | nil => simp [insertCand]
  | cons y ys ih =>
    simp only [insertCand]
    split
    · simp [List.mem_cons]
    · simp only [List.mem_cons, ih]; tauto

theorem mem_sortCands {z : Explanation} {l : List Explanation} :
    z ∈ sortCands l ↔ z ∈ l := by
  induction l with
  | nil => simp [sortCands]
  | cons x xs ih => simp [sortCands, mem_insertCand, ih]

theorem sortCands_nil_iff {l : List Explanation} : sortCands l = [] ↔ l = [] := by
  cases l with
  | nil => simp [sortCands]
  | cons x xs =>
    simp only [sortCands]
    constructor
    · intro h; exact absurd h (insertCand_ne_nil x (sortCands xs))
    · intro h; cases h

theorem sortCands_head_max : ∀ {l : List Explanation} {w : Explanation}
    {r : List Explanation}, sortCands l = w :: r → ∀ z ∈ l, z.precedence ≤ w.precedence := by
  intro l
  induction l with
  | nil => intro w r h; simp [sortCands] at h
  | cons x xs ih =>
    intro w r h
    simp only [sortCands] at h
    cases hs : sortCands xs with
    | nil =>
      have hxe : xs = [] := sortCands_nil_iff.mp hs
      rw [hs] at h
      simp only [insertCand] at h
      injection h with h1 h2
      subst h1
      subst hxe
      intro z hz
      simp only [List.mem_cons, List.not_mem_nil, or_false] at hz
      subst hz; exact le_refl _
    | cons y ys =>
      rw [hs] at h
      simp only [insertCand] at h
      split at h
      · rename_i hle
        simp only [candLE] at hle
        injection h with h1 h2
        subst h1
        intro z hz
        rcases List.mem_cons.mp hz with hz | hz
        · subst hz; exact le_refl _
        · have hy : z.precedence ≤ y.precedence := ih hs z hz
          have hyw : y.precedence ≤ x.precedence := by
            rcases hle with h1 | ⟨h1, _⟩
            · exact le_of_lt h1
            · exact le_of_eq h1.symm
          exact le_trans hy hyw
      · rename_i hle
        simp only [candLE] at hle
        injection h with h1 h2
        subst h1
        intro z hz
        rcases List.mem_cons.mp hz with hz | hz
        · subst hz
          by_contra hlt
          push_neg at hlt
          exact hle (Or.inl hlt)
        · exact ih hs z hz

theorem firstMaxPrec_mem : ∀ {l : List Explanation} {y : Explanation},
    firstMaxPrec l = some y → y ∈ l := by
  intro l
  induction l with
  | nil => intro y h; simp [firstMaxPrec] at h
  | cons x xs ih =>
    intro y h
    simp only [firstMaxPrec] at h
    split at h
    · cases h; exact List.mem_cons_self _ _
    · rename_i z hf
      split at h
      · cases h; exact List.mem_cons_of_mem _ (ih hf)
      · cases h; exact List.mem_cons_self _ _

theorem sortCands_head_firstMax {l : List Explanation}
    (hts : l.Pairwise (fun a b => a.timestamp ≤ b.timestamp)) :
    (sortCands l).head? = firstMaxPrec l := by
  induction l with
  | nil => simp [sortCands, firstMaxPrec]
  | cons x xs ih =>
    have hx : ∀ b ∈ xs, x.timestamp ≤ b.timestamp := (List.pairwise_cons.mp hts).1
    have hxs := (List.pairwise_cons.mp hts).2
    simp only [sortCands, firstMaxPrec]
    cases hs : sortCands xs with
    | nil =>
      have hxe : xs = [] := sortCands_nil_iff.mp hs
      subst hxe
      simp [insertCand, firstMaxPrec]
    | cons y ys =>
      have hhead : firstMaxPrec xs = some y := by rw [← ih hxs, hs]; rfl
      rw [hhead]
      simp only [insertCand]
      split
      · rename_i hle
        split
        · rename_i hlt
          exfalso
          rcases hle with h1 | ⟨h1, _⟩ <;> omega
        · simp
      · rename_i hle
        split
        · simp
        · rename_i hlt
          exfalso
          apply hle
          rcases lt_or_le y.precedence x.precedence with h1 | h1
          · exact Or.inl h1
          · have heq : x.precedence = y.precedence := by omega
            exact Or.inr ⟨heq, hx y (firstMaxPrec_mem hhead)⟩

theorem candidateOf_won_false {e : Explained} {key : String} {c : Explanation}
    (h : candidateOf e key = .ok (some c)) : c.won = false := by
  unfold candidateOf at h
  split at h
  · split at h
    · simp at h
    · split at h
      · split at h
        · injection h with h1
          injection h1 with h2
          subst h2; rfl
        · simp at h
      · simp at h
  · simp at h

theorem candidatesFor_won_false : ∀ {sources : List Explained} {key : String}
    {c : List Explanation}, candidatesFor sources key = .ok c →
    ∀ e ∈ c, e.won = false := by
  intro sources
  induction sources with
  | nil => intro key c h e he; simp [candidatesFor] at h; subst h; cases he
  | cons s rest ih =>
    intro key c h e he
    simp only [candidatesFor] at h
    split at h
    · simp at h
    · exact ih h e he
    · rename_i x hx
      cases hr : candidatesFor rest key with
      | error msg => rw [hr] at h; simp [Except.map] at h
      | ok cs =>
        rw [hr] at h
        simp only [Except.map] at h
        injection h with h1
        subst h1
        rcases List.mem_cons.mp he with he | he
        · subst he; exact candidateOf_won_false hx
        · exact ih hr e he

theorem mergeKeys_lookup : ∀ {sources : List Explained} {keys : List String}
    {entries : List (String × Value × List Explanation)},
    mergeKeys sources keys = .ok entries →
    ∀ {key : String} {l : List Explanation},
    lookupExps (entries.map (fun e => (e.1, e.2.2))) key = some l →
    ∃ c w r, candidatesFor sources key = .ok c ∧ sortCands c = w :: r ∧
      l = ({ w with won := true } : Explanation) :: r ∧
      lookupField (entries.map (fun e => (e.1, e.2.1))) key = some w.value := by
  intro sources keys
  induction keys with
  | nil =>
    intro entries h key l hl
    simp only [mergeKeys] at h
    injection h with h1
    subst h1
    simp [lookupExps] at hl
  | cons k ks ih =>
    intro entries h key l hl
    simp only [mergeKeys] at h
    split at h
    · simp at h
    · rename_i cands hc
      split at h
      · exact ih h hl
      · rename_i w r hs
        cases hrec : mergeKeys sources ks with
        | error msg => rw [hrec] at h; simp [Except.map] at h
        | ok es =>
          rw [hrec] at h
          simp only [Except.map] at h
          injection h with h1
          subst h1
          simp only [List.map_cons, lookupExps, List.find?] at hl
          by_cases hk : k = key
          · subst hk
            simp only [beq_self_eq_true] at hl
            injection hl with h2
            exact ⟨cands, w, r, hc, hs, h2.symm, by
              simp [lookupField, List.find?]⟩
          · have hbeq : (k == key) = false := beq_eq_false_iff_ne.mpr hk
            rw [hbeq] at hl
            obtain ⟨c, w2, r2, hc2, hs2, hl2, hval⟩ := ih hrec hl
            refine ⟨c, w2, r2, hc2, hs2, hl2, ?_⟩
            simpa [lookupField, List.find?, hbeq] using hval

theorem merge_ok_entries {sources : List Explained} {m : Explained}
    (h : Explained.merge sources = .ok m) :
    ∃ entries, mergeKeys sources (allMergeKeys sources) = .ok entries ∧
      m.value = .obj (entries.map (fun e => (e.1, e.2.1))) ∧
      m.explanations = entries.map (fun e => (e.1, e.2.2)) := by
  unfold Explained.merge at h
  cases hk : mergeKeys sources (allMergeKeys sources) with
  | error msg => rw [hk] at h; simp [Except.map] at h
  | ok entries =>
    rw [hk] at h
    simp only [Except.map] at h
    injection h with h1
    subst h1
    exact ⟨entries, rfl, rfl, rfl⟩

/-- C1: for every successful Explained.merge and every field path with at
least one recorded Explanation in the resulting ledger, exactly one of that
path's Explanations has won = true, and the winning Explanation's value
equals the merged value's field at that path. -/
theorem merge_single_winner (sources : List Explained) (m : Explained) (key : String)
    (l : List Explanation) (hm : Explained.merge sources = .ok m)
    (hl : lookupExps m.explanations key = some l) :
    l.countP (fun e => e.won) = 1 ∧
      ∀ e ∈ l, e.won = true → jsGet m.value key = some e.value := by
  obtain ⟨entries, hk, hv, he⟩ := merge_ok_entries hm
  rw [he] at hl
  obtain ⟨c, w, r, hc, hs, hleq, hval⟩ := mergeKeys_lookup hk hl
  subst hleq
  have hwonr : ∀ e ∈ r, e.won = false := by
    intro e hr
    exact candidatesFor_won_false hc e
      (mem_sortCands.mp (by rw [hs]; exact List.mem_cons_of_mem w hr))
  constructor
  · have h0 : r.countP (fun e => e.won) = 0 := by
      rw [List.countP_eq_zero]
      intro e hr
      simp [hwonr e hr]
    rw [List.countP_cons_of_pos _ _ (by rfl), h0]
  · intro e hel hew
    rcases List.mem_cons.mp hel with h | h
    · subst h
      rw [hv]
      simpa [jsGet] using hval
    · rw [hwonr e h] at hew; cases hew

theorem merge_single_winner_witness :
    ([({ source := "cli", value := .num 5000, reason := "Command line flag", precedence := 20, location := none, won := true, timestamp := 2 } : Explanation), { source := "env", value := .num 3000, reason := "Environment variable", precedence := 10, location := none, won := false, timestamp := 1 }, { source := "defaults", value := .num 8080, reason := "Default configuration", precedence := 0, location := none, won := false, timestamp := 0 }].countP (fun e => e.won) = 1) ∧
      ∀ e, e ∈ ([({ source := "cli", value := .num 5000, reason := "Command line flag", precedence := 20, location := none, won := true, timestamp := 2 } : Explanation), { source := "env", value := .num 3000, reason := "Environment variable", precedence := 10, location := none, won := false, timestamp := 1 }, { source := "defaults", value := .num 8080, reason := "Default configuration", precedence := 0, location := none, won := false, timestamp := 0 }] : List Explanation) → e.won = true →
        jsGet (Value.obj [("port", .num 5000), ("host", .str "localhost")]) "port" = some e.value :=
  merge_single_winner
    [Explained.fromValue (.obj [("port", .num 8080), ("host", .str "localhost")]) "defaults" "Default configuration" 0 none 0,
     Explained.fromValue (.obj [("port", .num 3000)]) "env" "Environment variable" 10 none 1,
     Explained.fromValue (.obj [("port", .num 5000)]) "cli" "Command line flag" 20 none 2]
    { value := .obj [("port", .num 5000), ("host", .str "localhost")],
      explanations :=
         [("port", [({ source := "cli", value := .num 5000, reason := "Command line flag", precedence := 20, location := none, won := true, timestamp := 2 } : Explanation), { source := "env", value := .num 3000, reason := "Environment variable", precedence := 10, location := none, won := false, timestamp := 1 }, { source := "defaults", value := .num 8080, reason := "Default configuration", precedence := 0, location := none, won := false, timestamp := 0 }]),
          ("host", [{ source := "defaults", value := .str "localhost", reason := "Default configuration", precedence := 0, location := none, won := true, timestamp := 0 }])] }
    "port" _ rfl rfl

/-- C2: for every successful merge and recorded field path, a competing
Explanation with strictly higher precedence than another always beats it:
the lower one of any such pair never has won = true, the winning Explanation
has maximal precedence among all competitors for that path, and its value is
the merged field, independently of the order the sources were supplied in
(the statement quantifies over arbitrary source lists). -/
theorem merge_higher_precedence_wins (sources : List Explained) (m : Explained)
    (key : String) (l : List Explanation) (hm : Explained.merge sources = .ok m)
    (hl : lookupExps m.explanations key = some l) :
    (∀ a ∈ l, ∀ b ∈ l, a.precedence < b.precedence → a.won = false) ∧
      ∀ e ∈ l, e.won = true →
        (∀ a ∈ l, a.precedence ≤ e.precedence) ∧ jsGet m.value key = some e.value := by
  obtain ⟨entries, hk, hv, he⟩ := merge_ok_entries hm
  rw [he] at hl
  obtain ⟨c, w, r, hc, hs, hleq, hval⟩ := mergeKeys_lookup hk hl
  subst hleq
  have hmax : ∀ z ∈ c, z.precedence ≤ w.precedence := sortCands_head_max hs
  have hwonr : ∀ e ∈ r, e.won = false := by
    intro e hr
    exact candidatesFor_won_false hc e
      (mem_sortCands.mp (by rw [hs]; exact List.mem_cons_of_mem w hr))
  have hlprec : ∀ a ∈ ({ w with won := true } : Explanation) :: r,
      a.precedence ≤ w.precedence := by
    intro a ha
    rcases List.mem_cons.mp ha with h | h
    · subst h; exact le_refl _
    · exact hmax a (mem_sortCands.mp (by rw [hs]; exact List.mem_cons_of_mem w h))
  constructor
  · intro a ha b hb hab
    rcases List.mem_cons.mp ha with h | h
    · subst h
      exact absurd hab (not_lt.mpr (hlprec b hb))
    · exact hwonr a h
  · intro e hel hew
    have hee : e = { w with won := true } := by
      rcases List.mem_cons.mp hel with h | h
      · exact h
      · rw [hwonr e h] at hew; cases hew
    subst hee
    exact ⟨hlprec, by rw [hv]; simpa [jsGet] using hval⟩

theorem merge_higher_precedence_wins_witness :
    (∀ a ∈ ([{ source := "env", value := .num 3000, reason := "Environment variable", precedence := 10, location := none, won := true, timestamp := 1 }, { source := "defaults", value := .num 8080, reason := "Default configuration", precedence := 0, location := none, won := false, timestamp := 0 }] : List Explanation), ∀ b ∈ ([{ source := "env", value := .num 3000, reason := "Environment variable", precedence := 10, location := none, won := true, timestamp := 1 }, { source := "defaults", value := .num 8080, reason := "Default configuration", precedence := 0, location := none, won := false, timestamp := 0 }] : List Explanation), a.precedence < b.precedence → a.won = false) ∧
      ∀ e ∈ ([{ source := "env", value := .num 3000, reason := "Environment variable", precedence := 10, location := none, won := true, timestamp := 1 }, { source := "defaults", value := .num 8080, reason := "Default configuration", precedence := 0, location := none, won := false, timestamp := 0 }] : List Explanation), e.won = true →
        (∀ a ∈ ([{ source := "env", value := .num 3000, reason := "Environment variable", precedence := 10, location := none, won := true, timestamp := 1 }, { source := "defaults", value := .num 8080, reason := "Default configuration", precedence := 0, location := none, won := false, timestamp := 0 }] : List Explanation), a.precedence ≤ e.precedence) ∧
          jsGet (Value.obj [("port", .num 3000)]) "port" = some e.value :=
  merge_higher_precedence_wins
    [Explained.fromValue (.obj [("port", .num 8080)]) "defaults" "Default configuration" 0 none 0,
     Explained.fromValue (.obj [("port", .num 3000)]) "env" "Environment variable" 10 none 1]
    { value := .obj [("port", .num 3000)],
      explanations :=
        [("port", [{ source := "env", value := .num 3000, reason := "Environment variable", precedence := 10, location := none, won := true, timestamp := 1 }, { source := "defaults", value := .num 8080, reason := "Default configuration", precedence := 0, location := none, won := false, timestamp := 0 }])] }
    "port" _ rfl rfl

/-- C3: when sources carry non-decreasing timestamps in the order they were
supplied (the engine assigns them from successive Date.now() reads at
registration), the Explanation marked won for a field is exactly the
first-listed candidate of maximal precedence: on equal precedence the source
registered first wins, and since merge is a pure function of its input the
outcome is identical on every run with the same input order. -/
theorem merge_tie_first_registered (sources : List Explained) (m : Explained)
    (key : String) (c l : List Explanation) (e : Explanation)
    (hm : Explained.merge sources = .ok m)
    (hc : candidatesFor sources key = .ok c)
    (hts : c.Pairwise (fun a b => a.timestamp ≤ b.timestamp))
    (hl : lookupExps m.explanations key = some l)
    (he : e ∈ l) (hw : e.won = true) :
    ∃ w, firstMaxPrec c = some w ∧ e = { w with won := true } := by
  obtain ⟨entries, hk, hv, hex⟩ := merge_ok_entries hm
  rw [hex] at hl
  obtain ⟨c2, w, r, hc2, hs, hleq, hval⟩ := mergeKeys_lookup hk hl
  rw [hc] at hc2
  injection hc2 with hceq
  subst hceq
  subst hleq
  have hwonr : ∀ x ∈ r, x.won = false := by
    intro x hr
    exact candidatesFor_won_false hc x
      (mem_sortCands.mp (by rw [hs]; exact List.mem_cons_of_mem w hr))
  have hee : e = { w with won := true } := by
    rcases List.mem_cons.mp he with h | h
    · exact h
    · rw [hwonr e h] at hw; cases hw
  refine ⟨w, ?_, hee⟩
  have hhead : (sortCands c).head? = firstMaxPrec c := sortCands_head_firstMax hts
  rw [hs] at hhead
  exact hhead.symm

theorem merge_tie_first_registered_witness :
    ∃ w, firstMaxPrec [{ source := "first", value := .num 1, reason := "First source", precedence := 5, location := none, won := false, timestamp := 7 }, { source := "second", value := .num 2, reason := "Second source", precedence := 5, location := none, won := false, timestamp := 7 }] = some w ∧
      ({ source := "first", value := .num 1, reason := "First source", precedence := 5, location := none, won := true, timestamp := 7 } : Explanation) = { w with won := true } :=
  merge_tie_first_registered
    [Explained.fromValue (.obj [("port", .num 1)]) "first" "First source" 5 none 7,
     Explained.fromValue (.obj [("port", .num 2)]) "second" "Second source" 5 none 7]
    { value := .obj [("port", .num 1)],
      explanations :=
        [("port", [{ source := "first", value := .num 1, reason := "First source", precedence := 5, location := none, won := true, timestamp := 7 }, { source := "second", value := .num 2, reason := "Second source", precedence := 5, location := none, won := false, timestamp := 7 }])] }
    "port" _ _
    { source := "first", value := .num 1, reason := "First source", precedence := 5, location := none, won := true, timestamp := 7 }
    rfl rfl (by simp [List.pairwise_cons]) rfl (List.mem_cons_self _ _) rfl

theorem isPlainObj_exists {v : Value} (h : isPlainObj v = true) : ∃ fs, v = .obj fs := by
  cases v <;> first | exact ⟨_, rfl⟩ | simp [isPlainObj] at h

theorem isObjLike_of_isPlainObj {v : Value} (h : isPlainObj v = true) :
    isObjLike v = true := by
  obtain ⟨fs, rfl⟩ := isPlainObj_exists h
  rfl

theorem lookupField_isSome_of_mem : ∀ {fs : List (String × Value)} {key : String},
    key ∈ fs.map (fun kv => kv.1) → ∃ v, lookupField fs key = some v := by
  intro fs
  induction fs with
  | nil => intro key h; simp at h
  | cons kv rest ih =>
    intro key h
    by_cases hk : kv.1 = key
    · exact ⟨kv.2, by
        unfold lookupField
        rw [List.find?_cons_of_pos _ (by simp [hk])]
        rfl⟩
    · simp only [List.map_cons, List.mem_cons] at h
      rcases h with h | h
      · exact absurd h.symm hk
      · obtain ⟨v, hv⟩ := ih h
        refine ⟨v, ?_⟩
        unfold lookupField at hv ⊢
        rw [List.find?_cons_of_neg _ (by simp [hk])]
        exact hv

theorem lookupField_mem_keys {fs : List (String × Value)} {key : String} {v : Value}
    (h : lookupField fs key = some v) : key ∈ fs.map (fun kv => kv.1) := by
  unfold lookupField at h
  cases hf : fs.find? (fun kv => kv.1 == key) with
  | none => rw [hf] at h; cases h
  | some kv =>
    have h1 := List.find?_some hf
    have h2 : kv ∈ fs := List.mem_of_find?_eq_some hf
    rw [← eq_of_beq (show (kv.1 == key) = true from h1)]
    exact List.mem_map_of_mem _ h2

theorem candidateOf_obj_eq {s : Explained} {fs : List (String × Value)}
    {rootExp : Explanation} {rest : List Explanation} {key : String}
    (hv : s.value = .obj fs) (hr : s.rootExps = rootExp :: rest) :
    candidateOf s key = .ok ((lookupField fs key).map (fun fieldVal =>
      { source := rootExp.source, value := fieldVal, reason := rootExp.reason,
        precedence := rootExp.precedence, location := rootExp.location,
        won := false, timestamp := rootExp.timestamp })) := by
  unfold candidateOf
  rw [hv, hr]
  simp only [jsTruthy, jsHasKey, jsGet]
  cases hf : fs.find? (fun kv => kv.1 == key) with
  | none =>
    have hany : fs.any (fun kv => kv.1 == key) = false := by
      rw [List.find?_eq_none] at hf
      rw [Bool.eq_false_iff]
      intro hc
      obtain ⟨x, hx, hpx⟩ := List.any_eq_true.mp hc
      exact absurd hpx (by simpa using hf x hx)
    simp [lookupField, hf, hany]
  | some kv =>
    have hany : fs.any (fun kv => kv.1 == key) = true := by
      have h1 := List.find?_some hf
      exact List.any_eq_true.mpr ⟨kv, List.mem_of_find?_eq_some hf, h1⟩
    simp [lookupField, hf, hany]

theorem candidatesFor_obj_total {key : String} : ∀ {sources : List Explained},
    (∀ s ∈ sources, isPlainObj s.value = true ∧ s.rootExps ≠ []) →
    ∃ c, candidatesFor sources key = .ok c := by
  intro sources
  induction sources with
  | nil => intro _; exact ⟨[], rfl⟩
  | cons s rest ih =>
    intro h
    obtain ⟨hobj, hroot⟩ := h s (List.mem_cons_self _ _)
    obtain ⟨c, hc⟩ := ih (fun x hx => h x (List.mem_cons_of_mem _ hx))
    obtain ⟨fs, hv⟩ := isPlainObj_exists hobj
    cases hre : s.rootExps with
    | nil => exact absurd hre hroot
    | cons rootExp rest2 =>
      simp only [candidatesFor]
      rw [candidateOf_obj_eq hv hre]
      cases hf : lookupField fs key with
      | none => exact ⟨c, by simp only [hf, Option.map_none']; exact hc⟩
      | some fv => exact ⟨_, by simp only [hf, Option.map_some']; rw [hc]; rfl⟩

theorem candidatesFor_mem_of_some : ∀ {sources : List Explained} {key : String}
    {c : List Explanation}, candidatesFor sources key = .ok c →
    ∀ {s : Explained}, s ∈ sources → ∀ {x : Explanation},
    candidateOf s key = .ok (some x) → x ∈ c := by
  intro sources
  induction sources with
  | nil => intro key c h s hs; cases hs
  | cons s0 rest ih =>
    intro key c h s hs x hx
    simp only [candidatesFor] at h
    split at h
    · simp at h
    · rename_i hnone
      rcases List.mem_cons.mp hs with rfl | hs2
      · rw [hx] at hnone; simp at hnone
      · exact ih h hs2 hx
    · rename_i y hy
      cases hr : candidatesFor rest key with
      | error msg => rw [hr] at h; simp [Except.map] at h
      | ok cs =>
        rw [hr] at h
        simp only [Except.map] at h
        injection h with h1
        subst h1
        rcases List.mem_cons.mp hs with rfl | hs2
        · rw [hx] at hy
          injection hy with h2
          injection h2 with h3
          rw [h3]
          exact List.mem_cons_self _ _
        · exact List.mem_cons_of_mem _ (ih hr hs2 hx)

theorem candidatesFor_source_of_mem : ∀ {sources : List Explained} {key : String}
    {c : List Explanation}, candidatesFor sources key = .ok c →
    ∀ {x : Explanation}, x ∈ c →
    ∃ s ∈ sources, candidateOf s key = .ok (some x) := by
  intro sources
  induction sources with
  | nil => intro key c h x hx; simp only [candidatesFor] at h; injection h with h1; subst h1; cases hx
  | cons s0 rest ih =>
    intro key c h x hx
    simp only [candidatesFor] at h
    split at h
    · simp at h
    · obtain ⟨s, hs, hcand⟩ := ih h hx
      exact ⟨s, List.mem_cons_of_mem _ hs, hcand⟩
    · rename_i y hy
      cases hr : candidatesFor rest key with
      | error msg => rw [hr] at h; simp [Except.map] at h
      | ok cs =>
        rw [hr] at h
        simp only [Except.map] at h
        injection h with h1
        subst h1
        rcases List.mem_cons.mp hx with rfl | hx2
        · exact ⟨s0, List.mem_cons_self _ _, hy⟩
        · obtain ⟨s, hs, hcand⟩ := ih hr hx2
          exact ⟨s, List.mem_cons_of_mem _ hs, hcand⟩

theorem mem_addKeyOnce {acc : List String} {k0 k : String} :
    k ∈ addKeyOnce acc k0 ↔ k ∈ acc ∨ k = k0 := by
  unfold addKeyOnce
  split
  · rename_i hin
    constructor
    · exact Or.inl
    · rintro (h | rfl)
      · exact h
      · exact hin
  · simp [List.mem_append]

theorem mem_foldl_addKeyOnce : ∀ {ks acc : List String} {k : String},
    k ∈ ks.foldl addKeyOnce acc ↔ k ∈ acc ∨ k ∈ ks := by
  intro ks
  induction ks with
  | nil => intro acc k; simp
  | cons k0 ks ih =>
    intro acc k
    simp only [List.foldl_cons]
    rw [ih, mem_addKeyOnce]
    simp only [List.mem_cons]
    tauto

theorem mem_allMergeKeys {sources : List Explained} {k : String} :
    k ∈ allMergeKeys sources ↔
      ∃ s ∈ sources, isObjLike s.value = true ∧ k ∈ keysOfValue s.value := by
  have main : ∀ (ss : List Explained) (acc : List String),
      k ∈ ss.foldl
        (fun acc e =>
          if isObjLike e.value then (keysOfValue e.value).foldl addKeyOnce acc else acc)
        acc ↔
        k ∈ acc ∨ ∃ s ∈ ss, isObjLike s.value = true ∧ k ∈ keysOfValue s.value := by
    intro ss
    induction ss with
    | nil => intro acc; simp
    | cons s rest ih =>
      intro acc
      simp only [List.foldl_cons]
      rw [ih]
      by_cases hs : isObjLike s.value = true
      · rw [if_pos hs, mem_foldl_addKeyOnce]
        simp only [List.mem_cons]
        constructor
        · rintro ((h | h) | ⟨t, ht, hP⟩)
          · exact Or.inl h
          · exact Or.inr ⟨s, Or.inl rfl, hs, h⟩
          · exact Or.inr ⟨t, Or.inr ht, hP⟩
        · rintro (h | ⟨t, (rfl | ht), hP⟩)
          · exact Or.inl (Or.inl h)
          · exact Or.inl (Or.inr hP.2)
          · exact Or.inr ⟨t, ht, hP⟩
      · rw [if_neg hs]
        simp only [List.mem_cons]
        constructor
        · rintro (h | ⟨t, ht, hP⟩)
          · exact Or.inl h
          · exact Or.inr ⟨t, Or.inr ht, hP⟩
        · rintro (h | ⟨t, (rfl | ht), hP⟩)
          · exact Or.inl h
          · exact absurd hP.1 hs
          · exact Or.inr ⟨t, ht, hP⟩
  unfold allMergeKeys
  rw [main]
  simp

theorem mergeKeys_total {sources : List Explained}
    (h : ∀ s ∈ sources, isPlainObj s.value = true ∧ s.rootExps ≠ []) :
    ∀ keys, ∃ entries, mergeKeys sources keys = .ok entries := by
  intro keys
  induction keys with
  | nil => exact ⟨[], rfl⟩
  | cons key ks ih =>
    obtain ⟨entries, he⟩ := ih
    obtain ⟨c, hc⟩ := @candidatesFor_obj_total key _ h
    cases hs : sortCands c with
    | nil => exact ⟨entries, by simp only [mergeKeys, hc, hs, he]⟩
    | cons w r => exact ⟨_, by simp only [mergeKeys, hc, hs, he, Except.map]; rfl⟩

theorem mergeKeys_mem : ∀ {sources : List Explained} {keys : List String}
    {entries : List (String × Value × List Explanation)},
    mergeKeys sources keys = .ok entries → ∀ {k : String},
    (k ∈ entries.map (fun e => e.1) ↔
      k ∈ keys ∧ ∃ c w r, candidatesFor sources k = .ok c ∧ sortCands c = w :: r) := by
  intro sources keys
  induction keys with
  | nil =>
    intro entries h k
    simp only [mergeKeys] at h
    injection h with h1
    subst h1
    simp
  | cons key ks ih =>
    intro entries h k
    simp only [mergeKeys] at h
    split at h
    · simp at h
    · rename_i cands hcands
      split at h
      · rename_i hsort
        rw [ih h]
        constructor
        · rintro ⟨hk, P⟩
          exact ⟨List.mem_cons_of_mem _ hk, P⟩
        · rintro ⟨hk, c, w, r, hc, hs⟩
          rcases List.mem_cons.mp hk with rfl | hk
          · rw [hcands] at hc
            injection hc with hceq
            subst hceq
            rw [hsort] at hs
            cases hs
          · exact ⟨hk, c, w, r, hc, hs⟩
      · rename_i w r hsort
        cases hrec : mergeKeys sources ks with
        | error msg => rw [hrec] at h; simp [Except.map] at h
        | ok es =>
          rw [hrec] at h
          simp only [Except.map] at h
          injection h with h1
          subst h1
          simp only [List.map_cons, List.mem_cons]
          rw [ih hrec]
          constructor
          · rintro (rfl | ⟨hk, P⟩)
            · exact ⟨Or.inl rfl, cands, w, r, hcands, hsort⟩
            · exact ⟨Or.inr hk, P⟩
          · rintro ⟨hk, c, w2, r2, hc, hs⟩
            rcases hk with rfl | hk
            · exact Or.inl rfl
            · exact Or.inr ⟨hk, c, w2, r2, hc, hs⟩

theorem lookupExps_isSome_of_mem : ∀ {entries : List (String × List Explanation)}
    {k : String}, k ∈ entries.map (fun e => e.1) →
    ∃ l, lookupExps entries k = some l := by
  intro entries
  induction entries with
  | nil => intro k h; simp at h
  | cons e es ih =>
    intro k h
    by_cases hk : e.1 = k
    · exact ⟨e.2, by unfold lookupExps; rw [List.find?_cons_of_pos _ (by simp [hk])]; rfl⟩
    · simp only [List.map_cons, List.mem_cons] at h
      rcases h with h | h
      · exact absurd h.symm hk
      · obtain ⟨l, hl⟩ := ih h
        refine ⟨l, ?_⟩
        unfold lookupExps at hl ⊢
        rw [List.find?_cons_of_neg _ (by simp [hk])]
        exact hl

/-- C4: for every merge whose inputs are provenance-tagged partial values in
the sense of the specification (each wrapper holds a plain object and
carries at least one root Explanation), the merge succeeds, the merged
value's key set is exactly the union of the key sets of the sources, and a
field for which a single candidate competes takes that candidate's value
unconditionally; a field absent from a source simply does not compete for
that source. -/
theorem merge_union_keys (sources : List Explained)
    (h : ∀ s ∈ sources, isPlainObj s.value = true ∧ s.rootExps ≠ []) :
    ∃ m, Explained.merge sources = .ok m ∧
      (∀ key, key ∈ keysOfValue m.value ↔ ∃ s ∈ sources, key ∈ keysOfValue s.value) ∧
      (∀ key c, candidatesFor sources key = .ok [c] → jsGet m.value key = some c.value) := by
  obtain ⟨entries, hent⟩ := mergeKeys_total h (allMergeKeys sources)
  refine ⟨{ value := .obj (entries.map (fun e => (e.1, e.2.1))),
            explanations := entries.map (fun e => (e.1, e.2.2)) }, ?_, ?_, ?_⟩
  · unfold Explained.merge
    rw [hent]
    rfl
  · intro key
    dsimp only
    have hkv : keysOfValue (Value.obj (entries.map (fun e => (e.1, e.2.1)))) =
        entries.map (fun e => e.1) := by
      simp [keysOfValue, List.map_map, Function.comp]
    rw [hkv, mergeKeys_mem hent]
    constructor
    · rintro ⟨hk, _⟩
      obtain ⟨s, hsmem, _, hkey⟩ := mem_allMergeKeys.mp hk
      exact ⟨s, hsmem, hkey⟩
    · rintro ⟨s, hsmem, hkey⟩
      obtain ⟨hobj, hroot⟩ := h s hsmem
      obtain ⟨fs, hv⟩ := isPlainObj_exists hobj
      constructor
      · exact mem_allMergeKeys.mpr ⟨s, hsmem, isObjLike_of_isPlainObj hobj, hkey⟩
      · cases hre : s.rootExps with
        | nil => exact absurd hre hroot
        | cons rootExp rest2 =>
          obtain ⟨c, hc⟩ := @candidatesFor_obj_total key _ h
          rw [hv] at hkey
          obtain ⟨fv, hfv⟩ :=
            lookupField_isSome_of_mem (by simpa [keysOfValue] using hkey)
          have hcand : candidateOf s key = .ok (some
              { source := rootExp.source, value := fv, reason := rootExp.reason,
                precedence := rootExp.precedence, location := rootExp.location,
                won := false, timestamp := rootExp.timestamp }) := by
            rw [candidateOf_obj_eq hv hre, hfv]
            rfl
          have hmem := candidatesFor_mem_of_some hc hsmem hcand
          cases hs : sortCands c with
          | nil =>
            rw [sortCands_nil_iff.mp hs] at hmem
            cases hmem
          | cons w r => exact ⟨c, w, r, hc, hs⟩
  · intro key c hc1
    dsimp only
    obtain ⟨s, hsmem, hcand⟩ := candidatesFor_source_of_mem hc1 (List.mem_cons_self c [])
    obtain ⟨hobj, hroot⟩ := h s hsmem
    obtain ⟨fs, hv⟩ := isPlainObj_exists hobj
    cases hre : s.rootExps with
    | nil => exact absurd hre hroot
    | cons rootExp rest2 =>
      rw [candidateOf_obj_eq hv hre] at hcand
      injection hcand with h2
      cases hlf : lookupField fs key with
      | none => rw [hlf] at h2; cases h2
      | some fv =>
        have hkmem : key ∈ allMergeKeys sources :=
          mem_allMergeKeys.mpr ⟨s, hsmem, isObjLike_of_isPlainObj hobj,
            by rw [hv]; simpa [keysOfValue] using lookupField_mem_keys hlf⟩
        have hentmem : key ∈ entries.map (fun e => e.1) :=
          (mergeKeys_mem hent).mpr ⟨hkmem, [c], c, [], hc1, rfl⟩
        have hmapeq : (entries.map (fun e => (e.1, e.2.2))).map
            (fun (e : String × List Explanation) => e.1) = entries.map (fun e => e.1) := by
          simp [List.map_map, Function.comp]
        obtain ⟨l, hl⟩ := lookupExps_isSome_of_mem (k := key) (hmapeq ▸ hentmem)
        obtain ⟨c2, w, r, hc2, hs2, hleq, hval⟩ := mergeKeys_lookup hent hl
        rw [hc1] at hc2
        injection hc2 with hceq
        subst hceq
        have hsc : sortCands [c] = [c] := rfl
        rw [hsc] at hs2
        injection hs2 with hw hr
        subst hw
        simpa [jsGet] using hval

theorem merge_union_keys_witness :
    ∃ m, Explained.merge
        [Explained.fromValue (.obj [("port", .num 8080), ("host", .str "localhost")]) "defaults" "Default configuration" 0 none 0,
         Explained.fromValue (.obj [("port", .num 3000)]) "env" "Environment variable" 10 none 1] = .ok m ∧
      (∀ key, key ∈ keysOfValue m.value ↔
        ∃ s ∈ [Explained.fromValue (.obj [("port", .num 8080), ("host", .str "localhost")]) "defaults" "Default configuration" 0 none 0,
               Explained.fromValue (.obj [("port", .num 3000)]) "env" "Environment variable" 10 none 1],
          key ∈ keysOfValue s.value) ∧
      (∀ key c, candidatesFor
          [Explained.fromValue (.obj [("port", .num 8080), ("host", .str "localhost")]) "defaults" "Default configuration" 0 none 0,
           Explained.fromValue (.obj [("port", .num 3000)]) "env" "Environment variable" 10 none 1] key = .ok [c] →
        jsGet m.value key = some c.value) :=
  merge_union_keys _ (by
    intro s hs
    rcases List.mem_cons.mp hs with rfl | hs
    · exact ⟨rfl, by simp [Explained.fromValue, Explained.rootExps, Explained.explain, lookupExps]⟩
    · rcases List.mem_cons.mp hs with rfl | hs
      · exact ⟨rfl, by simp [Explained.fromValue, Explained.rootExps, Explained.explain, lookupExps]⟩
      · cases hs)

theorem jsTruthy_false_not_objLike {v : Value} (h : jsTruthy v = false) :
    isObjLike v = false := by
  cases v <;> simp_all [jsTruthy, isObjLike]

theorem candidateOf_falsy {s : Explained} (h : jsTruthy s.value = false) (key : String) :
    candidateOf s key = .ok none := by
  unfold candidateOf
  rw [h]
  rfl

theorem candidateOf_noroot {s : Explained} (hobj : isObjLike s.value = true)
    (hroot : s.rootExps = []) (key : String) : candidateOf s key = .ok none := by
  unfold candidateOf
  rw [hroot]
  cases hv : s.value with
  | obj fs =>
    simp only [jsTruthy, jsHasKey]
    simp
  | arr xs =>
    simp only [jsTruthy, jsHasKey]
    simp
  | null => rw [hv] at hobj; simp [isObjLike] at hobj
  | bool b => rw [hv] at hobj; simp [isObjLike] at hobj
  | num n => rw [hv] at hobj; simp [isObjLike] at hobj
  | str t => rw [hv] at hobj; simp [isObjLike] at hobj

theorem candidatesFor_skip {s : Explained} {key : String}
    (h : candidateOf s key = .ok none) (l1 l2 : List Explained) :
    candidatesFor (l1 ++ s :: l2) key = candidatesFor (l1 ++ l2) key := by
  induction l1 with
  | nil => simp only [List.nil_append, candidatesFor, h]
  | cons e es ih =>
    simp only [List.cons_append, candidatesFor, List.append_eq]
    rw [ih]

theorem allMergeKeys_skip (l1 l2 : List Explained) {s : Explained}
    (h : isObjLike s.value = false) :
    allMergeKeys (l1 ++ s :: l2) = allMergeKeys (l1 ++ l2) := by
  unfold allMergeKeys
  rw [List.foldl_append, List.foldl_append, List.foldl_cons]
  congr 1
  simp [h]

theorem mergeKeys_congr {s1 s2 : List Explained}
    (h : ∀ k, candidatesFor s1 k = candidatesFor s2 k) :
    ∀ keys, mergeKeys s1 keys = mergeKeys s2 keys := by
  intro keys
  induction keys with
  | nil => rfl
  | cons key ks ih => simp only [mergeKeys, h key, ih]

/-- C10 amended: a wrapper whose value is falsy (null, false, zero, the
empty string) is skipped entirely by Explained.merge, and a wrapper whose
value is a non-null object but whose ledger has no root Explanation
contributes no candidate Explanation for any key; but, contrary to the
claim as stated, a wrapper holding a truthy primitive is not silently
skipped — merge throws a TypeError as soon as any key is collected (see the
counterexample theorem). -/
theorem merge_skips_ill_formed (l1 l2 : List Explained) (s : Explained) (key : String) :
    (jsTruthy s.value = false →
      Explained.merge (l1 ++ s :: l2) = Explained.merge (l1 ++ l2)) ∧
      (isObjLike s.value = true → s.rootExps = [] →
        candidatesFor (l1 ++ s :: l2) key = candidatesFor (l1 ++ l2) key) := by
  constructor
  · intro h
    unfold Explained.merge
    rw [allMergeKeys_skip l1 l2 (jsTruthy_false_not_objLike h),
      mergeKeys_congr (fun k => candidatesFor_skip (candidateOf_falsy h k) l1 l2)]
  · intro hobj hroot
    exact candidatesFor_skip (candidateOf_noroot hobj hroot key) l1 l2

theorem merge_skips_ill_formed_witness :
    (jsTruthy (Explained.fromValue .null "env" "Missing value" 10 none 1).value = false →
      Explained.merge
        [Explained.fromValue (.obj [("a", .num 1)]) "defaults" "Default configuration" 0 none 0,
         Explained.fromValue .null "env" "Missing value" 10 none 1] =
        Explained.merge
          [Explained.fromValue (.obj [("a", .num 1)]) "defaults" "Default configuration" 0 none 0]) ∧
      (isObjLike (Explained.fromValue .null "env" "Missing value" 10 none 1).value = true →
        (Explained.fromValue .null "env" "Missing value" 10 none 1).rootExps = [] →
        candidatesFor
          [Explained.fromValue (.obj [("a", .num 1)]) "defaults" "Default configuration" 0 none 0,
           Explained.fromValue .null "env" "Missing value" 10 none 1] "a" =
          candidatesFor
            [Explained.fromValue (.obj [("a", .num 1)]) "defaults" "Default configuration" 0 none 0] "a") :=
  merge_skips_ill_formed
    [Explained.fromValue (.obj [("a", .num 1)]) "defaults" "Default configuration" 0 none 0]
    [] (Explained.fromValue .null "env" "Missing value" 10 none 1) "a"

/-- C10 counterexample: merging a well-formed object source together with a
wrapper holding the truthy primitive 5 does not silently skip the latter:
evaluating Explained.merge raises the TypeError of the JavaScript in
operator, refuting the claim that such inputs are never an error. -/
theorem merge_nonobject_throws :
    Explained.merge
      [Explained.fromValue (.obj [("a", .num 1)]) "defaults" "Default configuration" 0 none 0,
       Explained.fromValue (.num 5) "env" "Environment variable" 10 none 1] =
      .error "TypeError: in operator applied to a non-object" := rfl

/-- C6 (evidence of the divergence): serialising the merge of one single
source with two fields reports metadata.sourcesCount = 2, the number of
ledger paths (the Map size the source actually uses), while the number of
distinct sources recorded in the ledger is 1, contradicting both the claim
and the documentation of sourcesCount in src/core/types.ts. -/
theorem toJSON_sourcesCount_counts_paths :
    ∃ m, Explained.merge
        [Explained.fromValue (.obj [("a", .num 1), ("b", .num 2)]) "defaults"
          "Default configuration" 0 none 0] = .ok m ∧
      (m.toJSON 99).metadata.sourcesCount = 2 ∧ specDistinctSourcesCount m = 1 :=
  ⟨_, rfl, rfl, rfl⟩

theorem resolveParents_visited_mono
    {recur : String → Int → List String → Except ResolveError (List TSResolution × List String)}
    (hrec : ∀ r q v out, recur r q v = .ok out → v ⊆ out.2) :
    ∀ {prec : Int} {count : Nat} {ps : List (Nat × String)} {chain : List TSResolution}
    {v : List String} {out}, resolveParents recur prec count ps chain v = .ok out →
    v ⊆ out.2 := by
  intro prec count ps
  induction ps with
  | nil =>
    intro chain v out h
    simp only [resolveParents] at h
    injection h with h1
    subst h1
    exact List.Subset.refl v
  | cons ir rest ih =>
    intro chain v out h
    simp only [resolveParents] at h
    split at h
    · simp at h
    · rename_i res hres
      exact (hrec _ _ _ _ hres).trans (ih h)

theorem resolveChain_visited_mono (fs : FileSys) :
    ∀ (fuel : Nat) {p : String} {prec : Int} {v : List String} {out},
    resolveTSConfigChain fs fuel p prec v = .ok out → v ⊆ out.2 := by
  intro fuel
  induction fuel with
  | zero => intro p prec v out h; simp [resolveTSConfigChain] at h
  | succ fuel ih =>
    intro p prec v out h
    simp only [resolveTSConfigChain, resolveChainStep] at h
    split at h
    · simp at h
    · rename_i fullPath hfp
      split at h
      · injection h with h1
        subst h1
        exact List.Subset.refl v
      · split at h
        · simp at h
        · rename_i config hload
          split at h
          · simp at h
          · rename_i pr hpar
            injection h with h1
            subst h1
            have hmono := resolveParents_visited_mono
              (fun r q vv oo hh => ih hh) hpar
            exact (List.subset_append_left v [fullPath]).trans hmono

theorem resolveTSConfigPath_eq {fs : FileSys} {p fp : String}
    (h : resolveTSConfigPath fs p = .ok fp) : fp = p ∧ (lookupFile fs p).isSome = true := by
  unfold resolveTSConfigPath at h
  split at h
  · rename_i hsome
    injection h with h1
    exact ⟨h1.symm, hsome⟩
  · simp at h

theorem resolveParents_nodup
    {recur : String → Int → List String → Except ResolveError (List TSResolution × List String)}
    (hrecM : ∀ r q v out, recur r q v = .ok out → v ⊆ out.2)
    (hrecN : ∀ r q v out, recur r q v = .ok out →
      (out.1.map TSResolution.path).Nodup ∧ ∀ x ∈ out.1, x.path ∉ v ∧ x.path ∈ out.2) :
    ∀ {prec : Int} {count : Nat} {ps : List (Nat × String)} {chain : List TSResolution}
    {v0 : List String} {out} (vStart : List String),
    (chain.map TSResolution.path).Nodup →
    (∀ x ∈ chain, x.path ∉ vStart ∧ x.path ∈ v0) →
    vStart ⊆ v0 →
    resolveParents recur prec count ps chain v0 = .ok out →
    (out.1.map TSResolution.path).Nodup ∧ ∀ x ∈ out.1, x.path ∉ vStart ∧ x.path ∈ out.2 := by
  intro prec count ps
  induction ps with
  | nil =>
    intro chain v0 out vStart hch hchv hsub h
    simp only [resolveParents] at h
    injection h with h1
    subst h1
    exact ⟨hch, fun x hx => ⟨(hchv x hx).1, (hchv x hx).2⟩⟩
  | cons ir rest ih =>
    intro chain v0 out vStart hch hchv hsub h
    simp only [resolveParents] at h
    split at h
    · simp at h
    · rename_i c0 v1 hres
      obtain ⟨hn0, hv0⟩ := hrecN _ _ _ _ hres
      have hm0 : v0 ⊆ v1 := hrecM _ _ _ _ hres
      refine ih vStart ?_ ?_ (hsub.trans hm0) h
      · rw [List.map_append, List.nodup_append]
        refine ⟨hch, hn0, ?_⟩
        intro a ha hb
        obtain ⟨x, hx, rfl⟩ := List.mem_map.mp ha
        obtain ⟨y, hy, hyx⟩ := List.mem_map.mp hb
        exact absurd ((hchv x hx).2) (hyx ▸ (hv0 y hy).1)
      · intro x hx
        rcases List.mem_append.mp hx with hx | hx
        · exact ⟨(hchv x hx).1, hm0 (hchv x hx).2⟩
        · exact ⟨fun hc => (hv0 x hx).1 (hsub hc), (hv0 x hx).2⟩

theorem resolveChain_nodup (fs : FileSys) :
    ∀ (fuel : Nat) {p : String} {prec : Int} {v : List String} {out},
    resolveTSConfigChain fs fuel p prec v = .ok out →
    (out.1.map TSResolution.path).Nodup ∧ ∀ r ∈ out.1, r.path ∉ v ∧ r.path ∈ out.2 := by
  intro fuel
  induction fuel with
  | zero => intro p prec v out h; simp [resolveTSConfigChain] at h
  | succ fuel ih =>
    intro p prec v out h
    simp only [resolveTSConfigChain, resolveChainStep] at h
    split at h
    · simp at h
    · rename_i fullPath hfp
      split at h
      · injection h with h1
        subst h1
        exact ⟨List.nodup_nil, fun r hr => absurd hr (List.not_mem_nil r)⟩
      · rename_i hnotin
        split at h
        · simp at h
        · rename_i config hload
          split at h
          · simp at h
          · rename_i pr hpar
            injection h with h1
            subst h1
            have hparmono := resolveParents_visited_mono (fun r q vv oo hh =>
              resolveChain_visited_mono fs fuel hh) hpar
            obtain ⟨hn, hv⟩ := resolveParents_nodup
              (fun r q vv oo hh => resolveChain_visited_mono fs fuel hh)
              (fun r q vv oo hh => ih hh) (v ++ [fullPath]) (by simp)
              (fun x hx => absurd hx (List.not_mem_nil x)) (List.Subset.refl _) hpar
            constructor
            · rw [List.map_append, List.nodup_append]
              refine ⟨hn, List.nodup_singleton _, ?_⟩
              intro a ha hb
              obtain ⟨x, hx, rfl⟩ := List.mem_map.mp ha
              simp only [List.map_cons, List.map_nil, List.mem_singleton] at hb
              refine (hv x hx).1 ?_
              rw [hb]
              exact List.mem_append_right v (List.mem_singleton_self fullPath)
            · intro r hr
              rcases List.mem_append.mp hr with hr | hr
              · exact ⟨fun hc => (hv r hr).1 (List.mem_append_left _ hc), (hv r hr).2⟩
              · simp only [List.mem_singleton] at hr
                subst hr
                exact ⟨hnotin, hparmono (List.mem_append_right v (List.mem_singleton_self fullPath))⟩

theorem filter_notmem_length_mono : ∀ (l : List String) {v v2 : List String}, v ⊆ v2 →
    (l.filter (fun p => decide (p ∉ v2))).length ≤
      (l.filter (fun p => decide (p ∉ v))).length := by
  intro l
  induction l with
  | nil => intro v v2 h; simp
  | cons a l ih =>
    intro v v2 h
    simp only [List.filter_cons]
    by_cases ha2 : a ∈ v2
    · have h2 : decide (a ∉ v2) = false := by simp [ha2]
      rw [h2]
      by_cases ha : a ∈ v
      · have h1 : decide (a ∉ v) = false := by simp [ha]
        rw [h1]
        simpa using ih h
      · have h1 : decide (a ∉ v) = true := by simp [ha]
        rw [h1]
        simp only [if_false, if_true, List.length_cons, Bool.false_eq_true, reduceIte]
        exact le_trans (ih h) (Nat.le_succ _)
    · have ha : a ∉ v := fun hc => ha2 (h hc)
      have h2 : decide (a ∉ v2) = true := by simp [ha2]
      have h1 : decide (a ∉ v) = true := by simp [ha]
      rw [h1, h2]
      simpa using Nat.succ_le_succ (ih h)

theorem unvisitedCount_mono {fs : FileSys} {v v2 : List String} (h : v ⊆ v2) :
    unvisitedCount fs v2 ≤ unvisitedCount fs v := by
  unfold unvisitedCount
  exact filter_notmem_length_mono _ h

theorem filter_notmem_length_strict : ∀ {l : List String} {v : List String} {p : String},
    p ∈ l → p ∉ v →
    (l.filter (fun x => decide (x ∉ v ++ [p]))).length <
      (l.filter (fun x => decide (x ∉ v))).length := by
  intro l
  induction l with
  | nil => intro v p hp hv; cases hp
  | cons a l ih =>
    intro v p hp hv
    simp only [List.filter_cons]
    rcases List.mem_cons.mp hp with rfl | hmem
    · have h2 : decide (p ∉ v ++ [p]) = false := by simp
      have h1 : decide (p ∉ v) = true := by simp [hv]
      rw [h1, h2]
      simp only [Bool.false_eq_true, reduceIte, List.length_cons]
      exact Nat.lt_succ_of_le (filter_notmem_length_mono l (List.subset_append_left v [p]))
    · by_cases hap : a ∈ v ++ [p]
      · have h2 : decide (a ∉ v ++ [p]) = false := by simp [hap]
        rw [h2]
        by_cases hav : a ∈ v
        · have h1 : decide (a ∉ v) = false := by simp [hav]
          rw [h1]
          simpa using ih hmem hv
        · have h1 : decide (a ∉ v) = true := by simp [hav]
          rw [h1]
          simp only [Bool.false_eq_true, reduceIte, List.length_cons]
          exact Nat.lt_succ_of_lt (ih hmem hv)
      · have hav : a ∉ v := fun hc => hap (List.mem_append_left _ hc)
        have h2 : decide (a ∉ v ++ [p]) = true := by simp_all
        have h1 : decide (a ∉ v) = true := by simp [hav]
        rw [h1, h2]
        simpa using Nat.succ_lt_succ (ih hmem hv)

theorem unvisitedCount_strict {fs : FileSys} {v : List String} {p : String}
    (hp : p ∈ fs.map (fun kv => kv.1)) (hv : p ∉ v) :
    unvisitedCount fs (v ++ [p]) < unvisitedCount fs v := by
  unfold unvisitedCount
  exact filter_notmem_length_strict hp hv

theorem lookupFile_isSome_mem {fs : FileSys} {p : String}
    (h : (lookupFile fs p).isSome = true) : p ∈ fs.map (fun kv => kv.1) := by
  unfold lookupFile at h
  cases hf : fs.find? (fun kv => kv.1 == p) with
  | none => rw [hf] at h; simp at h
  | some kv =>
    have h1 := List.find?_some hf
    have h2 : kv ∈ fs := List.mem_of_find?_eq_some hf
    rw [← eq_of_beq (show (kv.1 == p) = true from h1)]
    exact List.mem_map_of_mem _ h2

theorem lookupFile_mem {fs : FileSys} {p : String} {f : TSFile}
    (h : lookupFile fs p = some f) : (p, f) ∈ fs := by
  unfold lookupFile at h
  cases hf : fs.find? (fun kv => kv.1 == p) with
  | none => rw [hf] at h; cases h
  | some kv =>
    rw [hf] at h
    injection h with h1
    have h2 := List.find?_some hf
    have h3 : kv ∈ fs := List.mem_of_find?_eq_some hf
    have h4 : kv.1 = p := eq_of_beq (show (kv.1 == p) = true from h2)
    have : (p, f) = kv := by
      rw [← h4, ← h1]
    rw [this]
    exact h3

theorem resolveTSConfigPath_error {fs : FileSys} {p : String} {e : ResolveError}
    (h : resolveTSConfigPath fs p = .error e) : e = .notFound p := by
  unfold resolveTSConfigPath at h
  split at h
  · cases h
  · injection h with h1
    exact h1.symm

theorem loadTSConfig_error {fs : FileSys} {p : String} {e : ResolveError}
    (h : loadTSConfig fs p = .error e) : e = .parseError p := by
  unfold loadTSConfig at h
  split at h
  · cases h
  · injection h with h1
    exact h1.symm

theorem resolveParents_fuel {fs : FileSys} {fuel : Nat}
    {recur : String → Int → List String → Except ResolveError (List TSResolution × List String)}
    (hrecM : ∀ r q v out, recur r q v = .ok out → v ⊆ out.2)
    (hrecF : ∀ r q v, unvisitedCount fs v < fuel → recur r q v ≠ .error .fuelExhausted) :
    ∀ {prec : Int} {count : Nat} {ps : List (Nat × String)} {chain : List TSResolution}
    {v : List String}, unvisitedCount fs v < fuel →
    resolveParents recur prec count ps chain v ≠ .error .fuelExhausted := by
  intro prec count ps
  induction ps with
  | nil => intro chain v hb hcontra; simp [resolveParents] at hcontra
  | cons ir rest ih =>
    intro chain v hb hcontra
    simp only [resolveParents] at hcontra
    split at hcontra
    · rename_i e hres
      injection hcontra with he
      subst he
      exact hrecF _ _ _ hb hres
    · rename_i c0 v1 hres
      have hm : v ⊆ v1 := hrecM _ _ _ _ hres
      exact ih (lt_of_le_of_lt (unvisitedCount_mono hm) hb) hcontra

theorem resolveChain_fuel (fs : FileSys) :
    ∀ (fuel : Nat) {p : String} {prec : Int} {v : List String},
    unvisitedCount fs v < fuel →
    resolveTSConfigChain fs fuel p prec v ≠ .error .fuelExhausted := by
  intro fuel
  induction fuel with
  | zero => intro p prec v hb; exact absurd hb (Nat.not_lt_zero _)
  | succ fuel ih =>
    intro p prec v hb hcontra
    simp only [resolveTSConfigChain, resolveChainStep] at hcontra
    split at hcontra
    · rename_i e hfp
      injection hcontra with he
      subst he
      cases resolveTSConfigPath_error hfp
    · rename_i fullPath hfp
      obtain ⟨rfl, hsome⟩ := resolveTSConfigPath_eq hfp
      split at hcontra
      · cases hcontra
      · rename_i hnotin
        split at hcontra
        · rename_i e hload
          injection hcontra with he
          subst he
          cases loadTSConfig_error hload
        · rename_i config hload
          split at hcontra
          · rename_i e hpar
            injection hcontra with he
            subst he
            have hless : unvisitedCount fs (v ++ [fullPath]) < fuel := by
              have h1 := unvisitedCount_strict (lookupFile_isSome_mem hsome) hnotin
              omega
            exact resolveParents_fuel
              (fun r q vv oo hh => resolveChain_visited_mono fs fuel hh)
              (fun r q vv hbb => ih hbb) hless hpar
          · cases hcontra

theorem snd_mem_of_mem_enumFrom {α : Type} : ∀ {l : List α} {n : Nat} {ir : Nat × α},
    ir ∈ l.enumFrom n → ir.2 ∈ l := by
  intro l
  induction l with
  | nil => intro n ir h; cases h
  | cons a l ih =>
    intro n ir h
    simp only [List.enumFrom] at h
    rcases List.mem_cons.mp h with rfl | h
    · exact List.mem_cons_self _ _
    · exact List.mem_cons_of_mem _ (ih h)

theorem fst_lt_of_mem_enumFrom {α : Type} : ∀ {l : List α} {n : Nat} {ir : Nat × α},
    ir ∈ l.enumFrom n → ir.1 < n + l.length := by
  intro l
  induction l with
  | nil => intro n ir h; cases h
  | cons a l ih =>
    intro n ir h
    simp only [List.enumFrom] at h
    rcases List.mem_cons.mp h with rfl | h
    · simp
    · have := ih h
      simp only [List.length_cons]
      omega

theorem resolveParents_success {fs : FileSys} {fuel : Nat}
    {recur : String → Int → List String → Except ResolveError (List TSResolution × List String)}
    (hrecM : ∀ r q v out, recur r q v = .ok out → v ⊆ out.2)
    (hrecS : ∀ (r : String) (q : Int) (v : List String), unvisitedCount fs v < fuel →
      (lookupFile fs r).isSome = true → ∃ out, recur r q v = .ok out) :
    ∀ {prec : Int} {count : Nat} {ps : List (Nat × String)} {chain : List TSResolution}
    {v : List String}, unvisitedCount fs v < fuel →
    (∀ ir ∈ ps, (lookupFile fs ir.2).isSome = true) →
    ∃ out, resolveParents recur prec count ps chain v = .ok out := by
  intro prec count ps
  induction ps with
  | nil => intro chain v _ _; exact ⟨(chain, v), rfl⟩
  | cons ir rest ih =>
    intro chain v hb hrefs
    obtain ⟨⟨c0, v0⟩, hout0⟩ :=
      hrecS ir.2 (parentPrec prec count ir.1) v hb (hrefs ir (List.mem_cons_self _ _))
    obtain ⟨out1, hout1⟩ := @ih (chain ++ c0) v0
      (lt_of_le_of_lt (unvisitedCount_mono (hrecM _ _ _ _ hout0)) hb)
      (fun x hx => hrefs x (List.mem_cons_of_mem _ hx))
    exact ⟨out1, by
      simp only [resolveParents]
      rw [hout0]
      exact hout1⟩

theorem resolveChain_success (fs : FileSys) (hclosed : closedFs fs) :
    ∀ (fuel : Nat) {p : String} {prec : Int} {v : List String},
    unvisitedCount fs v < fuel → (lookupFile fs p).isSome = true →
    ∃ out, resolveTSConfigChain fs fuel p prec v = .ok out := by
  intro fuel
  induction fuel with
  | zero => intro p prec v hb _; exact absurd hb (Nat.not_lt_zero _)
  | succ fuel ih =>
    intro p prec v hb hsome
    have hpath : resolveTSConfigPath fs p = .ok p := by
      unfold resolveTSConfigPath
      rw [if_pos hsome]
    by_cases hv : p ∈ v
    · refine ⟨([], v), ?_⟩
      simp only [resolveTSConfigChain, resolveChainStep, hpath]
      rw [if_pos hv]
    · obtain ⟨f, hf⟩ : ∃ f, lookupFile fs p = some f := Option.isSome_iff_exists.mp hsome
      have hok := hclosed _ (lookupFile_mem hf)
      cases f with
      | malformed => exact absurd hok (by simp [fileOk])
      | parsed config =>
        have hload : loadTSConfig fs p = .ok config := by
          unfold loadTSConfig
          rw [hf]
        have hrefs : ∀ r ∈ config.ext, (lookupFile fs r).isSome = true := hok
        have hless : unvisitedCount fs (v ++ [p]) < fuel := by
          have := unvisitedCount_strict (lookupFile_isSome_mem hsome) hv
          omega
        obtain ⟨⟨chain0, v2⟩, hpar⟩ := @resolveParents_success fs fuel
          (resolveTSConfigChain fs fuel)
          (fun r q vv oo hh => resolveChain_visited_mono fs fuel hh)
          (fun r q vv hbb hlk => @ih r q vv hbb hlk)
          prec config.ext.length config.ext.enum [] _ hless
          (fun ir hir => hrefs _ (snd_mem_of_mem_enumFrom hir))
        refine ⟨(chain0 ++ [{ path := p, config := config, precedence := prec }], v2), ?_⟩
        simp only [resolveTSConfigChain, resolveChainStep, hpath]
        rw [if_neg hv]
        simp only [hload, hpar]

theorem resolveParents_prec
    {recur : String → Int → List String → Except ResolveError (List TSResolution × List String)}
    {prec : Int} {count : Nat}
    (hrecP : ∀ r q v out, recur r q v = .ok out → ∀ x ∈ out.1, x.precedence ≤ q) :
    ∀ {ps : List (Nat × String)} {chain : List TSResolution} {v : List String} {out},
    (∀ ir ∈ ps, parentPrec prec count ir.1 < prec) →
    (∀ x ∈ chain, x.precedence < prec) →
    resolveParents recur prec count ps chain v = .ok out →
    ∀ x ∈ out.1, x.precedence < prec := by
  intro ps
  induction ps with
  | nil =>
    intro chain v out hps hch h
    simp only [resolveParents] at h
    injection h with h1
    subst h1
    exact hch
  | cons ir rest ih =>
    intro chain v out hps hch h
    simp only [resolveParents] at h
    split at h
    · simp at h
    · rename_i c0 v1 hres
      refine ih (fun x hx => hps x (List.mem_cons_of_mem _ hx)) ?_ h
      intro x hx
      rcases List.mem_append.mp hx with hx | hx
      · exact hch x hx
      · exact lt_of_le_of_lt (hrecP _ _ _ _ hres x hx) (hps ir (List.mem_cons_self _ _))

theorem resolveChain_prec (fs : FileSys) :
    ∀ (fuel : Nat) {p : String} {prec : Int} {v : List String} {out},
    resolveTSConfigChain fs fuel p prec v = .ok out →
    (∀ x ∈ out.1, x.precedence ≤ prec) ∧
      (out.1 = [] ∨ ∃ c0 d, out.1 = c0 ++ [{ path := p, config := d, precedence := prec }] ∧
        ∀ x ∈ c0, x.precedence < prec) := by
  intro fuel
  induction fuel with
  | zero => intro p prec v out h; simp [resolveTSConfigChain] at h
  | succ fuel ih =>
    intro p prec v out h
    simp only [resolveTSConfigChain, resolveChainStep] at h
    split at h
    · simp at h
    · rename_i fullPath hfp
      obtain ⟨rfl, hsome⟩ := resolveTSConfigPath_eq hfp
      split at h
      · injection h with h1
        subst h1
        exact ⟨fun x hx => absurd hx (List.not_mem_nil x), Or.inl rfl⟩
      · split at h
        · simp at h
        · rename_i config hload
          split at h
          · simp at h
          · rename_i c0 v2 hpar
            injection h with h1
            subst h1
            have hps : ∀ ir ∈ config.ext.enum, parentPrec prec config.ext.length ir.1 < prec := by
              intro ir hir
              have := fst_lt_of_mem_enumFrom hir
              unfold parentPrec
              omega
            have hchain0 : ∀ x ∈ c0, x.precedence < prec :=
              resolveParents_prec (fun r q vv oo hh => (ih hh).1) hps
                (fun x hx => absurd hx (List.not_mem_nil x)) hpar
            constructor
            · intro x hx
              rcases List.mem_append.mp hx with hx | hx
              · exact le_of_lt (hchain0 x hx)
              · simp only [List.mem_singleton] at hx
                subst hx
                exact le_refl _
            · exact Or.inr ⟨c0, config, rfl, hchain0⟩

theorem loadTSConfig_error_lookup {fs : FileSys} {p : String} {e : ResolveError}
    (h : loadTSConfig fs p = .error e) :
    lookupFile fs p = none ∨ lookupFile fs p = some .malformed := by
  unfold loadTSConfig at h
  cases hl : lookupFile fs p with
  | none => exact Or.inl rfl
  | some f =>
    cases f with
    | parsed config => rw [hl] at h; cases h
    | malformed => exact Or.inr rfl

theorem loadTSConfig_ok_lookup {fs : FileSys} {p : String} {config : TSDoc}
    (h : loadTSConfig fs p = .ok config) :
    lookupFile fs p = some (.parsed config) := by
  unfold loadTSConfig at h
  cases hl : lookupFile fs p with
  | none => rw [hl] at h; cases h
  | some f =>
    cases f with
    | parsed c2 =>
      rw [hl] at h
      injection h with h1
      rw [h1]
    | malformed => rw [hl] at h; cases h

theorem resolveTSConfigPath_error_lookup {fs : FileSys} {p : String} {e : ResolveError}
    (h : resolveTSConfigPath fs p = .error e) : lookupFile fs p = none := by
  unfold resolveTSConfigPath at h
  split at h
  · cases h
  · rename_i hns
    exact Option.not_isSome_iff_eq_none.mp (fun hc => hns hc)

theorem resolveParents_error
    {recur : String → Int → List String → Except ResolveError (List TSResolution × List String)}
    {fs : FileSys}
    (hrecE : ∀ r q v e, recur r q v = .error e →
      e = .fuelExhausted ∨ ∃ loc, e.location = some loc ∧
        (lookupFile fs loc = none ∨ lookupFile fs loc = some .malformed)) :
    ∀ {prec : Int} {count : Nat} {ps : List (Nat × String)} {chain : List TSResolution}
    {v : List String} {e : ResolveError},
    resolveParents recur prec count ps chain v = .error e →
    e = .fuelExhausted ∨ ∃ loc, e.location = some loc ∧
      (lookupFile fs loc = none ∨ lookupFile fs loc = some .malformed) := by
  intro prec count ps
  induction ps with
  | nil => intro chain v e h; simp [resolveParents] at h
  | cons ir rest ih =>
    intro chain v e h
    simp only [resolveParents] at h
    split at h
    · rename_i e0 hres
      injection h with h1
      subst h1
      exact hrecE _ _ _ _ hres
    · exact ih h

theorem resolveChain_error_char (fs : FileSys) :
    ∀ (fuel : Nat) {p : String} {prec : Int} {v : List String} {e : ResolveError},
    resolveTSConfigChain fs fuel p prec v = .error e →
    e = .fuelExhausted ∨ ∃ loc, e.location = some loc ∧
      (lookupFile fs loc = none ∨ lookupFile fs loc = some .malformed) := by
  intro fuel
  induction fuel with
  | zero =>
    intro p prec v e h
    simp only [resolveTSConfigChain] at h
    injection h with h1
    exact Or.inl h1.symm
  | succ fuel ih =>
    intro p prec v e h
    simp only [resolveTSConfigChain, resolveChainStep] at h
    split at h
    · rename_i e0 hfp
      injection h with h1
      subst h1
      refine Or.inr ⟨p, ?_, Or.inl (resolveTSConfigPath_error_lookup hfp)⟩
      rw [resolveTSConfigPath_error hfp]
      rfl
    · rename_i fullPath hfp
      obtain ⟨rfl, hsome⟩ := resolveTSConfigPath_eq hfp
      split at h
      · cases h
      · split at h
        · rename_i e0 hload
          injection h with h1
          subst h1
          refine Or.inr ⟨fullPath, ?_, loadTSConfig_error_lookup hload⟩
          rw [loadTSConfig_error hload]
          rfl
        · rename_i config hload
          split at h
          · rename_i e0 hpar
            injection h with h1
            subst h1
            exact resolveParents_error (fun r q vv ee hh => ih hh) hpar
          · cases h

theorem resolveParents_parsed
    {recur : String → Int → List String → Except ResolveError (List TSResolution × List String)}
    {fs : FileSys}
    (hrecO : ∀ r q v out, recur r q v = .ok out →
      ∀ x ∈ out.1, lookupFile fs x.path = some (.parsed x.config)) :
    ∀ {prec : Int} {count : Nat} {ps : List (Nat × String)} {chain : List TSResolution}
    {v : List String} {out},
    (∀ x ∈ chain, lookupFile fs x.path = some (.parsed x.config)) →
    resolveParents recur prec count ps chain v = .ok out →
    ∀ x ∈ out.1, lookupFile fs x.path = some (.parsed x.config) := by
  intro prec count ps
  induction ps with
  | nil =>
    intro chain v out hch h
    simp only [resolveParents] at h
    injection h with h1
    subst h1
    exact hch
  | cons ir rest ih =>
    intro chain v out hch h
    simp only [resolveParents] at h
    split at h
    · simp at h
    · rename_i c0 v1 hres
      refine ih ?_ h
      intro x hx
      rcases List.mem_append.mp hx with hx | hx
      · exact hch x hx
      · exact hrecO _ _ _ _ hres x hx

theorem resolveChain_parsed (fs : FileSys) :
    ∀ (fuel : Nat) {p : String} {prec : Int} {v : List String} {out},
    resolveTSConfigChain fs fuel p prec v = .ok out →
    ∀ r ∈ out.1, lookupFile fs r.path = some (.parsed r.config) := by
  intro fuel
  induction fuel with
  | zero => intro p prec v out h; simp [resolveTSConfigChain] at h
  | succ fuel ih =>
    intro p prec v out h
    simp only [resolveTSConfigChain, resolveChainStep] at h
    split at h
    · simp at h
    · rename_i fullPath hfp
      split at h
      · injection h with h1
        subst h1
        exact fun r hr => absurd hr (List.not_mem_nil r)
      · split at h
        · simp at h
        · rename_i config hload
          split at h
          · simp at h
          · rename_i pr hpar
            injection h with h1
            subst h1
            have hrecO : ∀ (rr : String) (q : Int) (vv : List String)
                (oo : List TSResolution × List String),
                resolveTSConfigChain fs fuel rr q vv = .ok oo →
                ∀ x ∈ oo.1, lookupFile fs x.path = some (.parsed x.config) :=
              fun rr q vv oo hh => ih hh
            have hchain0 := resolveParents_parsed hrecO
              (fun x hx => absurd hx (List.not_mem_nil x)) hpar
            intro r hr
            rcases List.mem_append.mp hr with hr | hr
            · exact hchain0 r hr
            · simp only [List.mem_singleton] at hr
              subst hr
              exact loadTSConfig_ok_lookup hload

/-- C5 amended: in every successful extends-chain resolution the entry
document of the walk is the last chain entry, carries exactly the precedence
the walk was started with, and every other document in the chain has a
strictly lower precedence; and the precedences handed to the parents of any
document (parentPrec) are strictly increasing in declaration order and all
strictly below the document's own precedence.  The original claim also
asserted that all documents receive pairwise distinct precedences, which is
false (see the counterexample theorem). -/
theorem chain_precedence_order (fs : FileSys) (fuel : Nat) (p : String) (prec : Int)
    (v : List String) (out : List TSResolution × List String)
    (h : resolveTSConfigChain fs fuel p prec v = .ok out) :
    (out.1 = [] ∨ ∃ c0 d, out.1 = c0 ++ [{ path := p, config := d, precedence := prec }] ∧
      ∀ x ∈ c0, x.precedence < prec) ∧
    (∀ (q : Int) (count i j : Nat), i < j → j < count →
      parentPrec q count i < parentPrec q count j ∧ parentPrec q count j < q) := by
  refine ⟨(resolveChain_prec fs fuel h).2, ?_⟩
  intro q count i j hij hjc
  unfold parentPrec
  omega

theorem chain_precedence_order_witness :
    (([({ path := "B", config := { ext := ["A"], data := .obj [] }, precedence := 9 } : TSResolution),
       { path := "A", config := { ext := ["B"], data := .obj [] }, precedence := 10 }],
      (["A", "B"] : List String)).1 = [] ∨
      ∃ c0 d, ([({ path := "B", config := { ext := ["A"], data := .obj [] }, precedence := 9 } : TSResolution),
       { path := "A", config := { ext := ["B"], data := .obj [] }, precedence := 10 }],
      (["A", "B"] : List String)).1 =
        c0 ++ [{ path := "A", config := d, precedence := 10 }] ∧
        ∀ x ∈ c0, x.precedence < 10) ∧
    (∀ (q : Int) (count i j : Nat), i < j → j < count →
      parentPrec q count i < parentPrec q count j ∧ parentPrec q count j < q) :=
  chain_precedence_order
    [("A", .parsed { ext := ["B"], data := .obj [] }),
     ("B", .parsed { ext := ["A"], data := .obj [] })]
    3 "A" 10 [] _ rfl

/-- C5 counterexample: a document A with parents B and C, where B has one
parent F and C has two parents G and H, resolves to a chain whose assigned
precedences are 7, 8, 7, 8, 9, 10: the documents of the chain do not
receive pairwise distinct precedences, refuting that part of the claim. -/
theorem chain_precedence_not_distinct :
    ∃ out, resolveTSConfigChain
        [("A", .parsed { ext := ["B", "C"], data := .obj [] }),
         ("B", .parsed { ext := ["F"], data := .obj [] }),
         ("C", .parsed { ext := ["G", "H"], data := .obj [] }),
         ("F", .parsed { ext := [], data := .obj [] }),
         ("G", .parsed { ext := [], data := .obj [] }),
         ("H", .parsed { ext := [], data := .obj [] })]
        10 "A" 10 [] = .ok out ∧
      out.1.map TSResolution.precedence = [7, 8, 7, 8, 9, 10] ∧
      ¬ (out.1.map TSResolution.precedence).Nodup :=
  ⟨_, rfl, rfl, by decide⟩

/-- C7: on a filesystem whose documents all parse and whose references all
resolve (cycles allowed), chain resolution with fuel exceeding the file
count terminates successfully — no infinite recursion, no error — and every
document contributes to the resulting chain at most once: an already visited
location is skipped, never re-added and never a failure. -/
theorem chain_cycle_safe (fs : FileSys) (fuel : Nat) (p : String) (prec : Int)
    (hclosed : closedFs fs) (hsome : (lookupFile fs p).isSome = true)
    (hfuel : unvisitedCount fs [] < fuel) :
    ∃ out, resolveTSConfigChain fs fuel p prec [] = .ok out ∧
      (out.1.map TSResolution.path).Nodup := by
  obtain ⟨out, hout⟩ := resolveChain_success fs hclosed fuel hfuel hsome
  exact ⟨out, hout, (resolveChain_nodup fs fuel hout).1⟩

theorem chain_cycle_safe_witness :
    ∃ out, resolveTSConfigChain
        [("A", .parsed { ext := ["B"], data := .obj [] }),
         ("B", .parsed { ext := ["A"], data := .obj [] })]
        3 "A" 10 [] = .ok out ∧
      (out.1.map TSResolution.path).Nodup :=
  chain_cycle_safe
    [("A", .parsed { ext := ["B"], data := .obj [] }),
     ("B", .parsed { ext := ["A"], data := .obj [] })]
    3 "A" 10 (by decide) (by decide) (by decide)

/-- C8: chain resolution aborts as a whole on a document that cannot be
located or parsed.  With adequate fuel, every error carries the offending
location, which is indeed missing or unparseable in the filesystem; a
successful resolution returns only documents that were located and parsed
(so no partial chain can ever be returned, the result being either a full
chain or a single error); and a missing parent reference aborts the
resolution of its child with an error naming the missing location. -/
theorem chain_error_aborts (fs : FileSys) (fuel : Nat) (p : String) (prec : Int)
    (v : List String) :
    (∀ e, unvisitedCount fs v < fuel → resolveTSConfigChain fs fuel p prec v = .error e →
      ∃ loc, e.location = some loc ∧
        (lookupFile fs loc = none ∨ lookupFile fs loc = some .malformed)) ∧
    (∀ out, resolveTSConfigChain fs fuel p prec v = .ok out →
      ∀ r ∈ out.1, lookupFile fs r.path = some (.parsed r.config)) ∧
    (∀ d q, lookupFile fs p = some (.parsed d) → d.ext = [q] → p ∉ v →
      lookupFile fs q = none → 2 ≤ fuel →
      ∃ e, resolveTSConfigChain fs fuel p prec v = .error e ∧ e.location = some q) := by
  refine ⟨?_, ?_, ?_⟩
  · intro e hb herr
    rcases resolveChain_error_char fs fuel herr with rfl | hloc
    · exact absurd herr (resolveChain_fuel fs fuel hb)
    · exact hloc
  · intro out hout
    exact resolveChain_parsed fs fuel hout
  · intro d q hd hext hnv hq hfuel2
    obtain ⟨f, rfl⟩ : ∃ f, fuel = f + 2 := ⟨fuel - 2, by omega⟩
    refine ⟨.notFound q, ?_, rfl⟩
    have hsome : (lookupFile fs p).isSome = true := by rw [hd]; rfl
    have hpath : resolveTSConfigPath fs p = .ok p := by
      unfold resolveTSConfigPath
      rw [if_pos hsome]
    have hload : loadTSConfig fs p = .ok d := by
      unfold loadTSConfig
      rw [hd]
    have hq2 : resolveTSConfigPath fs q = .error (.notFound q) := by
      unfold resolveTSConfigPath
      rw [if_neg (by rw [hq]; simp)]
    have hrecq : resolveTSConfigChain fs (f + 1) q (parentPrec prec 1 0) (v ++ [p]) =
        .error (.notFound q) := by
      simp only [resolveTSConfigChain, resolveChainStep, hq2]
    simp only [resolveTSConfigChain, resolveChainStep, hpath]
    rw [if_neg hnv]
    simp only [hload, hext, List.enum, List.enumFrom, List.length_singleton]
    simp only [resolveParents, resolveTSConfigChain, resolveChainStep, hq2]

theorem chain_error_aborts_witness :
    ∃ e, resolveTSConfigChain
        [("A", .parsed { ext := ["M"], data := .obj [] })]
        3 "A" 10 [] = .error e ∧ e.location = some "M" :=
  (chain_error_aborts [("A", .parsed { ext := ["M"], data := .obj [] })] 3 "A" 10 []).2.2
    { ext := ["M"], data := .obj [] } "M" rfl rfl (by simp) rfl (by omega)

theorem mk_data (s : String) : String.mk s.data = s := rfl

theorem data_append (a b : String) : (a ++ b).data = a.data ++ b.data := rfl

theorem goodKey_spec {s : String} (h : goodKey s = true) :
    s.data ≠ [] ∧ '.' ∉ s.data := by
  unfold goodKey at h
  rw [Bool.and_eq_true] at h
  obtain ⟨h1, h2⟩ := h
  constructor
  · intro hc
    rw [hc] at h1
    simp at h1
  · intro hc
    rw [Bool.not_eq_true'] at h2
    rw [List.contains_eq_any_beq] at h2
    rw [List.any_eq_false] at h2
    exact absurd (by simp) (h2 _ hc)

theorem splitDotsL_ne_nil : ∀ (cs : List Char), splitDotsL cs ≠ [] := by
  intro cs
  induction cs with
  | nil => simp [splitDotsL]
  | cons c cs ih =>
    simp only [splitDotsL]
    by_cases hc : c = '.'
    · simp [hc]
    · simp only [if_neg hc]
      cases h : splitDotsL cs with
      | nil => simp
      | cons g gs => simp

theorem splitDotsL_append : ∀ {g cs : List Char}, '.' ∉ g →
    ∀ {r : List Char} {rs : List (List Char)}, splitDotsL cs = r :: rs →
    splitDotsL (g ++ cs) = (g ++ r) :: rs := by
  intro g
  induction g with
  | nil =>
    intro cs _ r rs h
    simpa using h
  | cons c g ih =>
    intro cs hg r rs h
    have hc : ¬ (c = '.') := fun hcc => hg (hcc ▸ List.mem_cons_self c g)
    have hg2 : '.' ∉ g := fun hm => hg (List.mem_cons_of_mem c hm)
    simp only [List.cons_append, splitDotsL, List.append_eq]
    rw [ih hg2 h]
    simp [hc]

theorem joinDotsL_cons {g : List Char} {gs : List (List Char)} (h : gs ≠ []) :
    joinDotsL (g :: gs) = g ++ '.' :: joinDotsL gs := by
  cases gs with
  | nil => exact absurd rfl h
  | cons g2 gs2 => rfl

theorem splitDotsL_joinDotsL : ∀ {gs : List (List Char)}, gs ≠ [] →
    (∀ g ∈ gs, '.' ∉ g) → splitDotsL (joinDotsL gs) = gs := by
  intro gs
  induction gs with
  | nil => intro h _; exact absurd rfl h
  | cons g gs ih =>
    intro _ hdot
    cases gs with
    | nil =>
      have hsub := @splitDotsL_append g []
        (hdot g (List.mem_cons_self _ _)) [] [] rfl
      simpa using hsub
    | cons g2 gs2 =>
      have hj : joinDotsL (g :: g2 :: gs2) = g ++ '.' :: joinDotsL (g2 :: gs2) := rfl
      rw [hj]
      have hrec : splitDotsL (joinDotsL (g2 :: gs2)) = g2 :: gs2 :=
        ih (by simp) (fun x hx => hdot x (List.mem_cons_of_mem _ hx))
      have hsplit : splitDotsL ('.' :: joinDotsL (g2 :: gs2)) = [] :: g2 :: gs2 := by
        simp [splitDotsL, hrec]
      have := splitDotsL_append (hdot g (List.mem_cons_self _ _)) hsplit
      simpa using this

theorem joinDotsL_append_single : ∀ {gs : List (List Char)} {h : List Char}, gs ≠ [] →
    joinDotsL (gs ++ [h]) = joinDotsL gs ++ '.' :: h := by
  intro gs
  induction gs with
  | nil => intro h hne; exact absurd rfl hne
  | cons g gs ih =>
    intro h _
    cases gs with
    | nil => rfl
    | cons g2 gs2 =>
      have h1 : joinDotsL ((g :: g2 :: gs2) ++ [h]) =
          g ++ '.' :: joinDotsL ((g2 :: gs2) ++ [h]) := rfl
      rw [h1, ih (by simp), @joinDotsL_cons g (g2 :: gs2) (by simp)]
      simp

theorem splitDots_joinSegs : ∀ {ps : List String}, ps ≠ [] →
    (∀ s ∈ ps, goodKey s = true) → splitDots (joinSegs ps) = ps := by
  intro ps hne hgood
  unfold splitDots joinSegs
  have hd : (String.mk (joinDotsL (ps.map (fun s => s.data)))).data =
      joinDotsL (ps.map (fun s => s.data)) := rfl
  rw [hd, splitDotsL_joinDotsL (by
      intro hc
      exact hne (List.map_eq_nil_iff.mp hc))
    (by
      intro g hg
      obtain ⟨s, hs, rfl⟩ := List.mem_map.mp hg
      exact (goodKey_spec (hgood s hs)).2)]
  rw [List.map_map]
  have : ((fun l => String.mk l) ∘ fun s => s.data) = id := by
    funext s
    rfl
  rw [this, List.map_id]

theorem joinSegs_ne_empty {s : String} {ps : List String}
    (h1 : goodKey s = true) : joinSegs (s :: ps) ≠ "" := by
  intro hc
  have hdata : joinDotsL ((s :: ps).map (fun x => x.data)) = [] := by
    have := congrArg String.data hc
    simpa using this
  obtain ⟨hne, _⟩ := goodKey_spec h1
  cases hmap : ps.map (fun x => x.data) with
  | nil =>
    rw [List.map_cons, hmap] at hdata
    exact hne hdata
  | cons g gs =>
    rw [List.map_cons, hmap, joinDotsL_cons (by simp)] at hdata
    rcases List.append_eq_nil.mp hdata with ⟨h3, h4⟩
    cases h4

theorem joinKey_joinSegs : ∀ {ps : List String} {k : String},
    (∀ s ∈ ps, goodKey s = true) → joinKey (joinSegs ps) k = joinSegs (ps ++ [k]) := by
  intro ps k hps
  cases ps with
  | nil =>
    have h0 : joinSegs [] = "" := rfl
    simp only [joinKey, h0, if_pos rfl, List.nil_append]
    exact (mk_data k).symm
  | cons s ps2 =>
    have hne := @joinSegs_ne_empty s ps2 (hps s (List.mem_cons_self _ _))
    unfold joinKey
    rw [if_neg hne]
    apply String.ext
    rw [data_append, data_append]
    have hL : (joinSegs (s :: ps2)).data = joinDotsL ((s :: ps2).map (fun x => x.data)) := rfl
    have hR : (joinSegs ((s :: ps2) ++ [k])).data =
        joinDotsL (((s :: ps2) ++ [k]).map (fun x => x.data)) := rfl
    have hdot : (("." : String)).data = ['.'] := rfl
    rw [hL, hR]
    simp only [List.map_append, List.map_cons, List.map_nil]
    rw [joinDotsL_append_single (by simp)]
    simp

theorem pathsFields_cons_leaf {k : String} {v : Value} {rest : List (String × Value)}
    (h : isPlainObj v = false) :
    pathsFields ((k, v) :: rest) = ([k], v) :: pathsFields rest := by
  cases v
  all_goals simp_all [pathsFields, isPlainObj]

theorem pathsFields_cons_obj {k : String} {ws rest : List (String × Value)} :
    pathsFields ((k, .obj ws) :: rest) =
      (pathsFields ws).map (fun pv => (k :: pv.1, pv.2)) ++ pathsFields rest := by
  simp [pathsFields]

theorem goodFields_cons_spec {k : String} {v : Value} {rest : List (String × Value)}
    (h : goodFields ((k, v) :: rest) = true) :
    goodKey k = true ∧ k ∉ rest.map (fun kv => kv.1) ∧
      (∀ ws, v = .obj ws → ws ≠ [] ∧ goodFields ws = true) ∧
      goodFields rest = true := by
  rw [goodFields.eq_def] at h
  simp only at h
  rw [Bool.and_eq_true, Bool.and_eq_true, Bool.and_eq_true] at h
  obtain ⟨⟨⟨hk, hnd⟩, hv⟩, hrest⟩ := h
  refine ⟨hk, ?_, ?_, hrest⟩
  · intro hc
    rw [Bool.not_eq_true'] at hnd
    rw [List.any_eq_false] at hnd
    obtain ⟨kv, hkv, rfl⟩ := List.mem_map.mp hc
    exact hnd kv hkv (by simp)
  · intro ws hws
    subst hws
    have hv2 : (!ws.isEmpty && goodFields ws) = true := hv
    rw [Bool.and_eq_true] at hv2
    refine ⟨?_, hv2.2⟩
    intro hc
    subst hc
    simp at hv2

theorem pathsFields_head : ∀ (fs : List (String × Value)), ∀ pv ∈ pathsFields fs,
    ∃ t rest0, pv.1 = t :: rest0 ∧ t ∈ fs.map (fun kv => kv.1) := by
  intro fs
  induction fs with
  | nil => intro pv hpv; simp [pathsFields] at hpv
  | cons kv rest ih =>
    obtain ⟨k, v⟩ := kv
    intro pv hpv
    cases hv : v with
    | obj ws =>
      subst hv
      rw [pathsFields_cons_obj] at hpv
      rcases List.mem_append.mp hpv with hpv | hpv
      · obtain ⟨qv, _, rfl⟩ := List.mem_map.mp hpv
        exact ⟨k, qv.1, rfl, by simp⟩
      · obtain ⟨t, rest0, ht, hmem⟩ := ih pv hpv
        exact ⟨t, rest0, ht, by simp [hmem]⟩
    | null =>
      subst hv
      rw [pathsFields_cons_leaf (by rfl)] at hpv
      rcases List.mem_cons.mp hpv with rfl | hpv
      · exact ⟨k, [], rfl, by simp⟩
      · obtain ⟨t, rest0, ht, hmem⟩ := ih pv hpv
        exact ⟨t, rest0, ht, by simp [hmem]⟩
    | bool b =>
      subst hv
      rw [pathsFields_cons_leaf (by rfl)] at hpv
      rcases List.mem_cons.mp hpv with rfl | hpv
      · exact ⟨k, [], rfl, by simp⟩
      · obtain ⟨t, rest0, ht, hmem⟩ := ih pv hpv
        exact ⟨t, rest0, ht, by simp [hmem]⟩
    | num n =>
      subst hv
      rw [pathsFields_cons_leaf (by rfl)] at hpv
      rcases List.mem_cons.mp hpv with rfl | hpv
      · exact ⟨k, [], rfl, by simp⟩
      · obtain ⟨t, rest0, ht, hmem⟩ := ih pv hpv
        exact ⟨t, rest0, ht, by simp [hmem]⟩
    | str t2 =>
      subst hv
      rw [pathsFields_cons_leaf (by rfl)] at hpv
      rcases List.mem_cons.mp hpv with rfl | hpv
      · exact ⟨k, [], rfl, by simp⟩
      · obtain ⟨t, rest0, ht, hmem⟩ := ih pv hpv
        exact ⟨t, rest0, ht, by simp [hmem]⟩
    | arr xs =>
      subst hv
      rw [pathsFields_cons_leaf (by rfl)] at hpv
      rcases List.mem_cons.mp hpv with rfl | hpv
      · exact ⟨k, [], rfl, by simp⟩
      · obtain ⟨t, rest0, ht, hmem⟩ := ih pv hpv
        exact ⟨t, rest0, ht, by simp [hmem]⟩

theorem pathsFields_good : ∀ (fs : List (String × Value)), goodFields fs = true →
    ∀ pv ∈ pathsFields fs, pv.1 ≠ [] ∧ ∀ s ∈ pv.1, goodKey s = true := by
  intro fs
  induction fs using pathsFields.induct with
  | case1 => intro _ pv hpv; simp [pathsFields] at hpv
  | case2 k v rest ih1 ih2 =>
    intro hgood pv hpv
    obtain ⟨hk, hnd, hws, hrest⟩ := goodFields_cons_spec hgood
    by_cases hobj : isPlainObj v = true
    · obtain ⟨ws, rfl⟩ := isPlainObj_exists hobj
      rw [pathsFields_cons_obj] at hpv
      rcases List.mem_append.mp hpv with hpv | hpv
      · obtain ⟨qv, hqv, rfl⟩ := List.mem_map.mp hpv
        obtain ⟨hq1, hq2⟩ := ih1 (hws ws rfl).2 qv hqv
        refine ⟨by simp, ?_⟩
        intro s hs
        rcases List.mem_cons.mp hs with rfl | hs
        · exact hk
        · exact hq2 s hs
      · exact ih2 hrest pv hpv
    · rw [pathsFields_cons_leaf (Bool.not_eq_true _ ▸ hobj : isPlainObj v = false)] at hpv
      rcases List.mem_cons.mp hpv with rfl | hpv
      · constructor
        · simp
        · intro s hs
          rcases List.mem_cons.mp hs with rfl | hs
          · exact hk
          · cases hs
      · exact ih2 hrest pv hpv

theorem pathsFields_ne_nil : ∀ (fs : List (String × Value)), goodFields fs = true →
    fs ≠ [] → pathsFields fs ≠ [] := by
  intro fs
  induction fs using pathsFields.induct with
  | case1 => intro _ h; exact absurd rfl h
  | case2 k v rest ih1 ih2 =>
    intro hgood _
    obtain ⟨hk, hnd, hws, hrest⟩ := goodFields_cons_spec hgood
    by_cases hobj : isPlainObj v = true
    · obtain ⟨ws, rfl⟩ := isPlainObj_exists hobj
      rw [pathsFields_cons_obj]
      intro hc
      rcases List.append_eq_nil.mp hc with ⟨h1, _⟩
      exact ih1 (hws ws rfl).2 (hws ws rfl).1 (List.map_eq_nil_iff.mp h1)
    · rw [pathsFields_cons_leaf (Bool.not_eq_true _ ▸ hobj : isPlainObj v = false)]
      simp

theorem pathsFields_nodup : ∀ (fs : List (String × Value)), goodFields fs = true →
    ((pathsFields fs).map (fun pv => pv.1)).Nodup := by
  intro fs
  induction fs using pathsFields.induct with
  | case1 => intro _; simp [pathsFields]
  | case2 k v rest ih1 ih2 =>
    intro hgood
    obtain ⟨hk, hnd, hws, hrest⟩ := goodFields_cons_spec hgood
    have hdisj : ∀ (q : List String), ∀ pv ∈ pathsFields rest, k :: q ≠ pv.1 := by
      intro q pv hpv hc
      obtain ⟨t, rest0, ht, hmem⟩ := pathsFields_head rest pv hpv
      rw [ht] at hc
      injection hc with hc1 _
      exact hnd (hc1 ▸ hmem)
    by_cases hobj : isPlainObj v = true
    · obtain ⟨ws, rfl⟩ := isPlainObj_exists hobj
      rw [pathsFields_cons_obj, List.map_append, List.nodup_append]
      refine ⟨?_, ih2 hrest, ?_⟩
      · rw [List.map_map]
        have heq : ((fun pv => pv.1) ∘ fun pv : List String × Value => (k :: pv.1, pv.2)) =
            (fun q => k :: q) ∘ (fun pv : List String × Value => pv.1) := rfl
        rw [heq, ← List.map_map]
        refine List.Nodup.map ?_ (ih1 (hws ws rfl).2)
        intro a b hab
        injection hab
      · intro a ha hb
        rw [List.map_map] at ha
        obtain ⟨qv, hqv, rfl⟩ := List.mem_map.mp ha
        obtain ⟨pv, hpv, hpveq⟩ := List.mem_map.mp hb
        exact hdisj qv.1 pv hpv hpveq.symm
    · rw [pathsFields_cons_leaf (Bool.not_eq_true _ ▸ hobj : isPlainObj v = false)]
      simp only [List.map_cons, List.nodup_cons]
      refine ⟨?_, ih2 hrest⟩
      intro hc
      obtain ⟨pv, hpv, hpveq⟩ := List.mem_map.mp hc
      exact hdisj [] pv hpv hpveq.symm

theorem joinSegs_inj_paths {pres p1 p2 : List String}
    (hpres : ∀ s ∈ pres, goodKey s = true)
    (h1ne : p1 ≠ []) (h1g : ∀ s ∈ p1, goodKey s = true)
    (h2ne : p2 ≠ []) (h2g : ∀ s ∈ p2, goodKey s = true)
    (h : joinSegs (pres ++ p1) = joinSegs (pres ++ p2)) : p1 = p2 := by
  have e1 : splitDots (joinSegs (pres ++ p1)) = pres ++ p1 :=
    splitDots_joinSegs (fun hc => h1ne (List.append_eq_nil.mp hc).2)
      (by
        intro s hs
        rcases List.mem_append.mp hs with hs | hs
        · exact hpres s hs
        · exact h1g s hs)
  have e2 : splitDots (joinSegs (pres ++ p2)) = pres ++ p2 :=
    splitDots_joinSegs (fun hc => h2ne (List.append_eq_nil.mp hc).2)
      (by
        intro s hs
        rcases List.mem_append.mp hs with hs | hs
        · exact hpres s hs
        · exact h2g s hs)
  rw [h] at e1
  exact List.append_cancel_left (e1.symm.trans e2)

theorem jsSet_append {l : List (String × Value)} {k : String} {v : Value}
    (h : k ∉ l.map (fun kv => kv.1)) : jsSet l k v = l ++ [(k, v)] := by
  unfold jsSet
  have hany : l.any (fun kv => kv.1 == k) = false := by
    rw [List.any_eq_false]
    intro kv hkv
    simp only [beq_iff_eq]
    intro hc
    exact h (hc ▸ List.mem_map_of_mem _ hkv)
  rw [hany]
  simp

theorem foldl_jsSet_append : ∀ {sub acc : List (String × Value)},
    (∀ kv ∈ sub, kv.1 ∉ acc.map (fun x => x.1)) → (sub.map (fun x => x.1)).Nodup →
    sub.foldl (fun a kv => jsSet a kv.1 kv.2) acc = acc ++ sub := by
  intro sub
  induction sub with
  | nil => intro acc _ _; simp
  | cons kv sub ih =>
    intro acc hfresh hnd
    simp only [List.map_cons, List.nodup_cons] at hnd
    simp only [List.foldl_cons]
    rw [jsSet_append (hfresh kv (List.mem_cons_self _ _))]
    rw [ih ?_ hnd.2]
    · simp
    · intro x hx
      simp only [List.map_append, List.map_cons, List.map_nil, List.mem_append,
        List.mem_singleton]
      rintro (hc | hc)
      · exact hfresh x (List.mem_cons_of_mem _ hx) hc
      · exact hnd.1 (hc ▸ List.mem_map_of_mem _ hx)

theorem flattenList_paths : ∀ (fs : List (String × Value)) (pres : List String)
    (acc : List (String × Value)), goodFields fs = true →
    (∀ s ∈ pres, goodKey s = true) →
    (∀ key ∈ acc.map (fun kv => kv.1), ∀ pv ∈ pathsFields fs,
      key ≠ joinSegs (pres ++ pv.1)) →
    flattenList fs (joinSegs pres) acc =
      acc ++ (pathsFields fs).map (fun pv => (joinSegs (pres ++ pv.1), pv.2)) := by
  intro fs
  induction fs using pathsFields.induct with
  | case1 => intro pres acc _ _ _; simp [flattenList, pathsFields]
  | case2 k v rest ih1 ih2 =>
    intro pres acc hgood hpres hfresh
    obtain ⟨hk, hnd, hws, hrest⟩ := goodFields_cons_spec hgood
    have hpresk : ∀ s ∈ pres ++ [k], goodKey s = true := by
      intro s hs
      rcases List.mem_append.mp hs with hs | hs
      · exact hpres s hs
      · rw [List.mem_singleton.mp hs]; exact hk
    have hnk : joinKey (joinSegs pres) k = joinSegs (pres ++ [k]) := joinKey_joinSegs hpres
    have hcross : ∀ (p1 : List String), p1 ≠ [] → (∀ s ∈ p1, goodKey s = true) →
        p1.head? = some k →
        ∀ pv ∈ pathsFields rest, joinSegs (pres ++ p1) ≠ joinSegs (pres ++ pv.1) := by
      intro p1 h1ne h1g hhead pv hpv hc
      obtain ⟨t, rest0, ht, hmem⟩ := pathsFields_head rest pv hpv
      obtain ⟨hq1, hq2⟩ := pathsFields_good rest hrest pv hpv
      have hpeq := joinSegs_inj_paths hpres h1ne h1g hq1 hq2 hc
      rw [hpeq, ht] at hhead
      have hh : t = k := by
        simp only [List.head?] at hhead
        injection hhead
      exact hnd (hh ▸ hmem)
    by_cases hobj : isPlainObj v = true
    · obtain ⟨ws, rfl⟩ := isPlainObj_exists hobj
      have hwsgood := (hws ws rfl).2
      have hwspaths := pathsFields_good ws hwsgood
      have hsub : flattenObject (.obj ws) (joinKey (joinSegs pres) k) =
          (pathsFields ws).map (fun qv => (joinSegs (pres ++ k :: qv.1), qv.2)) := by
        rw [hnk]
        have h0 : flattenObject (.obj ws) (joinSegs (pres ++ [k])) =
            flattenList ws (joinSegs (pres ++ [k])) [] := by
          simp [flattenObject]
        rw [h0, ih1 (pres ++ [k]) [] hwsgood hpresk (by intro key hkey; simp at hkey)]
        simp [List.append_assoc]
      have hsubfresh : ∀ kv ∈ (pathsFields ws).map
          (fun qv => (joinSegs (pres ++ k :: qv.1), qv.2)),
          kv.1 ∉ acc.map (fun x => x.1) := by
        intro kv hkv hmem
        obtain ⟨qv, hqv, rfl⟩ := List.mem_map.mp hkv
        refine hfresh _ hmem ((k :: qv.1, qv.2)) ?_ rfl
        rw [pathsFields_cons_obj]
        exact List.mem_append_left _ (List.mem_map_of_mem _ hqv)
      have hsubnodup : (((pathsFields ws).map
          (fun qv => (joinSegs (pres ++ k :: qv.1), qv.2))).map (fun x => x.1)).Nodup := by
        rw [List.map_map]
        have heq : ((fun x : String × Value => x.1) ∘
            fun qv : List String × Value => (joinSegs (pres ++ k :: qv.1), qv.2)) =
            (fun q : List String => joinSegs (pres ++ k :: q)) ∘
              (fun qv : List String × Value => qv.1) := rfl
        rw [heq, ← List.map_map]
        refine List.Nodup.map_on ?_ (pathsFields_nodup ws hwsgood)
        intro q1 hq1 q2 hq2 hj
        obtain ⟨qv1, hqv1, rfl⟩ := List.mem_map.mp hq1
        obtain ⟨qv2, hqv2, rfl⟩ := List.mem_map.mp hq2
        have hg1 := hwspaths qv1 hqv1
        have hg2 := hwspaths qv2 hqv2
        have hp12 := @joinSegs_inj_paths pres _ _ hpres (by simp)
          (by
            intro s hs
            rcases List.mem_cons.mp hs with rfl | hs
            · exact hk
            · exact hg1.2 s hs)
          (by simp)
          (by
            intro s hs
            rcases List.mem_cons.mp hs with rfl | hs
            · exact hk
            · exact hg2.2 s hs)
          hj
        injection hp12
      simp only [flattenList, isPlainObj, if_true]
      rw [hsub, foldl_jsSet_append hsubfresh hsubnodup]
      have hfr2 : ∀ key ∈ (acc ++ (pathsFields ws).map
          (fun qv => (joinSegs (pres ++ k :: qv.1), qv.2))).map (fun kv => kv.1),
          ∀ pv ∈ pathsFields rest, key ≠ joinSegs (pres ++ pv.1) := by
        intro key hkey pv hpv
        rw [List.map_append] at hkey
        rcases List.mem_append.mp hkey with hkey | hkey
        · exact hfresh key hkey pv (by
            rw [pathsFields_cons_obj]
            exact List.mem_append_right _ hpv)
        · rw [List.map_map] at hkey
          obtain ⟨qv, hqv, rfl⟩ := List.mem_map.mp hkey
          have hg := hwspaths qv hqv
          exact hcross (k :: qv.1) (by simp)
            (by
              intro s hs
              rcases List.mem_cons.mp hs with rfl | hs
              · exact hk
              · exact hg.2 s hs)
            rfl pv hpv
      rw [ih2 pres _ hrest hpres hfr2]
      rw [pathsFields_cons_obj, List.map_append, List.map_map]
      rw [List.append_assoc]
      rfl
    · have hobjf : isPlainObj v = false := Bool.not_eq_true _ ▸ hobj
      have hleaf := @pathsFields_cons_leaf k _ rest hobjf
      have hnkfresh : joinSegs (pres ++ [k]) ∉ acc.map (fun x => x.1) := by
        intro hmem
        refine hfresh _ hmem (([k], v)) ?_ rfl
        rw [hleaf]
        exact List.mem_cons_self _ _
      simp only [flattenList]
      rw [if_neg hobj, hnk, jsSet_append hnkfresh]
      have hfr2 : ∀ key ∈ (acc ++ [(joinSegs (pres ++ [k]), v)]).map (fun kv => kv.1),
          ∀ pv ∈ pathsFields rest, key ≠ joinSegs (pres ++ pv.1) := by
        intro key hkey pv hpv
        rw [List.map_append] at hkey
        rcases List.mem_append.mp hkey with hkey | hkey
        · exact hfresh key hkey pv (by
            rw [hleaf]
            exact List.mem_cons_of_mem _ hpv)
        · simp only [List.map_cons, List.map_nil, List.mem_singleton] at hkey
          subst hkey
          exact hcross [k] (by simp)
            (by
              intro s hs
              rw [List.mem_singleton.mp hs]
              exact hk)
            rfl pv hpv
      rw [ih2 pres _ hrest hpres hfr2]
      rw [hleaf]
      simp [List.append_assoc]

theorem lookupField_none_of_notmem {l : List (String × Value)} {k : String}
    (h : k ∉ l.map (fun kv => kv.1)) : lookupField l k = none := by
  unfold lookupField
  have hf : l.find? (fun kv => kv.1 == k) = none := by
    rw [List.find?_eq_none]
    intro kv hkv
    simp only [beq_iff_eq]
    intro hc
    exact h (hc ▸ List.mem_map_of_mem _ hkv)
  rw [hf]
  rfl

theorem lookupField_append_none {r l2 : List (String × Value)} {j : String}
    (h : lookupField r j = none) : lookupField (r ++ l2) j = lookupField l2 j := by
  induction r with
  | nil => simp
  | cons kv r ih =>
    unfold lookupField at h ⊢
    by_cases hp : (kv.1 == j) = true
    · rw [List.find?_cons_of_pos (p := fun z : String × Value => z.1 == j) _ hp] at h
      simp at h
    · rw [List.find?_cons_of_neg (p := fun z : String × Value => z.1 == j) _ hp] at h
      rw [List.cons_append, List.find?_cons_of_neg (p := fun z : String × Value => z.1 == j) _ hp]
      exact ih h

theorem lookupField_cons_self {k : String} {s : Value} {l : List (String × Value)} :
    lookupField ((k, s) :: l) k = some s := by
  unfold lookupField
  rw [List.find?_cons_of_pos (p := fun z : String × Value => z.1 == k) _ (by simp)]
  rfl

theorem lookupField_append_last {r : List (String × Value)} {k : String} {s : Value}
    (h : k ∉ r.map (fun kv => kv.1)) : lookupField (r ++ [(k, s)]) k = some s := by
  rw [lookupField_append_none (lookupField_none_of_notmem h), lookupField_cons_self]

theorem jsSet_overwrite_last {r : List (String × Value)} {k : String} {s v : Value}
    (h : k ∉ r.map (fun kv => kv.1)) : jsSet (r ++ [(k, s)]) k v = r ++ [(k, v)] := by
  unfold jsSet
  have hany : (r ++ [(k, s)]).any (fun kv => kv.1 == k) = true := by
    rw [List.any_eq_true]
    exact ⟨(k, s), by simp, by simp⟩
  rw [if_pos hany, List.map_append]
  have hr : r.map (fun kv => if kv.1 == k then (k, v) else kv) = r := by
    have hcongr : r.map (fun kv => if kv.1 == k then (k, v) else kv) = r.map id :=
      List.map_congr_left (by
        intro kv hkv
        rw [if_neg]
        · rfl
        · simp only [beq_iff_eq]
          intro hc
          exact h (hc ▸ List.mem_map_of_mem _ hkv))
    rw [hcongr, List.map_id]
  rw [hr]
  simp

theorem insertPath_obj : ∀ (fs : List (String × Value)) (p : List String) (x w : Value),
    insertPath (.obj fs) p x = some w → ∃ ws, w = Value.obj ws := by
  intro fs p x w h
  match p with
  | [] => simp [insertPath] at h
  | [k] =>
    simp only [insertPath, Option.some_inj] at h
    exact ⟨_, h.symm⟩
  | k :: k2 :: rest =>
    simp only [insertPath] at h
    rcases Option.bind_eq_some.mp h with ⟨s, _, hmap⟩
    rcases Option.map_eq_some'.mp hmap with ⟨sub, _, hw⟩
    exact ⟨_, hw.symm⟩

theorem insertPath_descend {r : List (String × Value)} {k : String}
    {s : List (String × Value)} {q : List String} {x : Value}
    (hlk : lookupField r k = some (.obj s)) (hq : q ≠ []) :
    insertPath (.obj r) (k :: q) x =
      (insertPath (.obj s) q x).map (fun sub => Value.obj (jsSet r k sub)) := by
  cases q with
  | nil => exact absurd rfl hq
  | cons k2 rest =>
    simp only [insertPath, hlk, Option.some_bind]

theorem insertPath_create {r : List (String × Value)} {k : String}
    {q : List String} {x : Value}
    (hlk : lookupField r k = none) (hq : q ≠ []) :
    insertPath (.obj r) (k :: q) x =
      (insertPath (.obj []) q x).map (fun sub => Value.obj (jsSet r k sub)) := by
  cases q with
  | nil => exact absurd rfl hq
  | cons k2 rest =>
    simp only [insertPath, hlk, Option.some_bind]

theorem insertAll_group : ∀ (L : List (List String × Value))
    (r s s2 : List (String × Value)) (k : String),
    k ∉ r.map (fun kv => kv.1) → (∀ pv ∈ L, pv.1 ≠ []) →
    insertAll L (.obj s) = some (.obj s2) →
    insertAll (L.map (fun pv => (k :: pv.1, pv.2))) (.obj (r ++ [(k, .obj s)])) =
      some (.obj (r ++ [(k, .obj s2)])) := by
  intro L
  induction L with
  | nil =>
    intro r s s2 k _ _ h
    simp only [insertAll, List.foldlM_nil] at h
    injection h with h1
    injection h1 with h2
    rw [h2]
    simp [insertAll]
  | cons qv L2 ih =>
    intro r s s2 k hk hne h
    simp only [insertAll, List.foldlM_cons] at h
    cases hstep : insertPath (.obj s) qv.1 qv.2 with
    | none => rw [hstep] at h; simp at h
    | some w =>
      rw [hstep] at h
      simp only [Option.bind_eq_bind, Option.some_bind] at h
      obtain ⟨s1, rfl⟩ := insertPath_obj s qv.1 qv.2 w hstep
      simp only [List.map_cons, insertAll, List.foldlM_cons]
      rw [insertPath_descend (lookupField_append_last hk) (hne qv (List.mem_cons_self _ _)),
        hstep]
      simp only [Option.map_some, jsSet_overwrite_last hk, Option.bind_eq_bind,
        Option.some_bind]
      have := ih r s1 s2 k hk (fun pv hpv => hne pv (List.mem_cons_of_mem _ hpv)) h
      simp only [insertAll] at this
      exact this

theorem insertAll_group_new : ∀ {L : List (List String × Value)}
    {r s2 : List (String × Value)} {k : String},
    k ∉ r.map (fun kv => kv.1) → (∀ pv ∈ L, pv.1 ≠ []) → L ≠ [] →
    insertAll L (.obj []) = some (.obj s2) →
    insertAll (L.map (fun pv => (k :: pv.1, pv.2))) (.obj r) =
      some (.obj (r ++ [(k, .obj s2)])) := by
  intro L r s2 k hk hne hLne h
  cases L with
  | nil => exact absurd rfl hLne
  | cons qv L2 =>
    simp only [insertAll, List.foldlM_cons] at h
    cases hstep : insertPath (.obj []) qv.1 qv.2 with
    | none => rw [hstep] at h; simp at h
    | some w =>
      rw [hstep] at h
      simp only [Option.bind_eq_bind, Option.some_bind] at h
      obtain ⟨s1, rfl⟩ := insertPath_obj [] qv.1 qv.2 w hstep
      simp only [List.map_cons, insertAll, List.foldlM_cons]
      rw [insertPath_create (lookupField_none_of_notmem hk)
        (hne qv (List.mem_cons_self _ _)), hstep]
      simp only [Option.map_some, jsSet_append hk, Option.bind_eq_bind, Option.some_bind]
      have := insertAll_group L2 r s1 s2 k hk
        (fun pv hpv => hne pv (List.mem_cons_of_mem _ hpv)) h
      simp only [insertAll] at this
      exact this

theorem insertAll_pathsFields : ∀ (fs : List (String × Value)),
    goodFields fs = true → ∀ (r : List (String × Value)),
    (∀ kv ∈ fs, kv.1 ∉ r.map (fun x => x.1)) →
    insertAll (pathsFields fs) (.obj r) = some (.obj (r ++ fs)) := by
  intro fs
  induction fs using pathsFields.induct with
  | case1 => intro _ r _; simp [insertAll, pathsFields]
  | case2 k v rest ih1 ih2 =>
    intro hgood r hfresh
    obtain ⟨hk, hnd, hws, hrest⟩ := goodFields_cons_spec hgood
    have hkr : k ∉ r.map (fun x => x.1) := hfresh (k, v) (List.mem_cons_self _ _)
    have hfresh2 : ∀ w : Value, ∀ kv ∈ rest, kv.1 ∉ (r ++ [(k, w)]).map (fun x => x.1) := by
      intro w kv hkv hc
      rw [List.map_append] at hc
      rcases List.mem_append.mp hc with hc | hc
      · exact hfresh kv (List.mem_cons_of_mem _ hkv) hc
      · simp only [List.map_cons, List.map_nil, List.mem_singleton] at hc
        exact hnd (hc ▸ List.mem_map_of_mem _ hkv)
    by_cases hobj : isPlainObj v = true
    · obtain ⟨ws, rfl⟩ := isPlainObj_exists hobj
      have hwsne := (hws ws rfl).1
      have hwsgood := (hws ws rfl).2
      have h1 : insertAll (pathsFields ws) (.obj []) = some (.obj ws) := by
        have := ih1 hwsgood [] (by simp)
        simpa using this
      have h2 := insertAll_group_new (L := (pathsFields ws)) hkr
        (fun pv hpv => (pathsFields_good ws hwsgood pv hpv).1)
        (pathsFields_ne_nil ws hwsgood hwsne) h1
      have h3 := ih2 hrest (r ++ [(k, .obj ws)]) (hfresh2 (.obj ws))
      rw [pathsFields_cons_obj]
      simp only [insertAll, List.foldlM_append]
      simp only [insertAll] at h2 h3
      rw [h2]
      simp only [Option.bind_eq_bind, Option.some_bind, h3]
      simp
    · have hobjf : isPlainObj v = false := Bool.not_eq_true _ ▸ hobj
      rw [pathsFields_cons_leaf hobjf]
      have h3 := ih2 hrest (r ++ [(k, v)]) (hfresh2 v)
      simp only [insertAll, List.foldlM_cons]
      simp only [insertPath, Option.bind_eq_bind, Option.some_bind]
      rw [jsSet_append hkr]
      simp only [insertAll] at h3
      rw [h3]
      simp

theorem unflatten_map : ∀ (L : List (List String × Value)) (acc : Value),
    (∀ pv ∈ L, splitDots (joinSegs pv.1) = pv.1) →
    (L.map (fun pv => (joinSegs pv.1, pv.2))).foldlM
        (fun a kv => insertPath a (splitDots kv.1) kv.2) acc = insertAll L acc := by
  intro L
  induction L with
  | nil => intro acc _; rfl
  | cons pv L2 ih =>
    intro acc h
    simp only [List.map_cons, insertAll, List.foldlM_cons, h pv (List.mem_cons_self _ _)]
    cases hstep : insertPath acc pv.1 pv.2 with
    | none => simp
    | some w =>
      simp only [Option.bind_eq_bind, Option.some_bind]
      have := ih w (fun qv hqv => h qv (List.mem_cons_of_mem _ hqv))
      simp only [insertAll] at this
      exact this

/-- C9 amended: for a document whose keys are, at every nesting level,
nonempty, free of dots and pairwise distinct, and whose nested plain objects
are all nonempty, unflattening the flattened form rebuilds exactly the
original document (keys in the original order).  The original claim promised
the round trip for every nested object; it fails for empty nested objects
(see the counterexample theorem), and keys containing dots or duplicated
keys likewise break it. -/
theorem flatten_roundtrip (fs : List (String × Value)) (h : goodFields fs = true) :
    unflattenObject (flattenObject (.obj fs) "") = some (.obj fs) := by
  have hflat : flattenObject (.obj fs) "" =
      (pathsFields fs).map (fun pv => (joinSegs pv.1, pv.2)) := by
    have h0 : flattenObject (.obj fs) "" = flattenList fs "" [] := by
      simp [flattenObject]
    rw [h0, show ("" : String) = joinSegs [] from rfl,
      flattenList_paths fs [] [] h (by intro s hs; simp at hs)
        (by intro key hkey; simp at hkey)]
    simp
  unfold unflattenObject
  rw [hflat, unflatten_map (pathsFields fs) (.obj [])
    (fun pv hpv => splitDots_joinSegs (pathsFields_good fs h pv hpv).1
      (fun s hs => (pathsFields_good fs h pv hpv).2 s hs))]
  have hins := insertAll_pathsFields fs h [] (by intro kv hkv; simp)
  simpa using hins

/-- C9 counterexample: the document storing an empty object under key a
flattens to an empty record, because flattening an empty nested object emits
no dotted keys at all; unflattening that record yields the empty document,
not the original one, so the round trip fails on nested empty objects. -/
theorem flatten_roundtrip_cex :
    flattenObject (.obj [("a", Value.obj [])]) "" = [] ∧
    unflattenObject (flattenObject (.obj [("a", Value.obj [])]) "") =
      some (.obj []) ∧
    Value.obj ([] : List (String × Value)) ≠ Value.obj [("a", Value.obj [])] := by
  have h1 : flattenObject (.obj [("a", Value.obj [])]) "" = [] := by
    simp [flattenObject, flattenList, isPlainObj]
  refine ⟨h1, ?_, ?_⟩
  · rw [h1]
    rfl
  · intro hc
    have h2 := Value.obj.inj hc
    simp at h2

/-- C9 witness: the two-level document with keys a, b and nested key c
satisfies the key discipline and survives the flatten/unflatten round
trip. -/
theorem flatten_roundtrip_witness :
    goodFields [("a", Value.num 1), ("b", Value.obj [("c", Value.str "x")])] = true ∧
    unflattenObject (flattenObject
        (.obj [("a", Value.num 1), ("b", Value.obj [("c", Value.str "x")])]) "") =
      some (.obj [("a", Value.num 1), ("b", Value.obj [("c", Value.str "x")])]) := by
  have hg : goodFields [("a", Value.num 1), ("b", Value.obj [("c", Value.str "x")])] =
      true := by
    simp only [goodFields]
    decide
  exact ⟨hg, flatten_roundtrip _ hg⟩
